import Mathlib

/-!
Verification of the `tool-json` reference-resolution and graph-rewriting
engine against its natural-language specification.

The development shallowly embeds the TypeScript sources:

* `src/pointer.ts` — JSON Pointer escaping, unescaping and resolution;
* `src/resource.ts` — resources, anchors, canonical-URI registry, fragment
  and URI resolution;
* `src/reference.ts` — reference registration, batch resolution
  (`resolveReferences`) and tree-shaking (`treeShakeReferences`);
* `src/context.ts` — the frame stack and `nestFrame`.

JavaScript heap objects are modelled explicitly: an object or array lives in
a `Heap` (a finite map from numeric ids to `JObj`), and a JavaScript value is
a `JVal` — either a primitive or a pointer into the heap.  Object identity
(`===`, `WeakMap`/`Map`/`Set` keys) is id equality.  Mutable `Reference`
objects live in a reference heap (`refCells`) keyed by reference ids, so the
aliasing between `context.references` and `context.unresolved` is preserved.
Thrown JavaScript exceptions become `Except JsError` results; `async`
functions are embedded as plain functions (a suspension point that is
awaited before use), matching the spec's "uniformly asynchronous-capable"
reading.  JavaScript `Map`s are association lists with `Map.set` replacing
in place, and object property access is own-property lookup (exotic array
properties such as `length` and prototype-inherited properties are outside
the JSON data model and are not modelled).
-/

namespace ToolJson

/-- A JSON primitive value (a JavaScript non-object value). -/
inductive JPrim where
  | null
  | bool (b : Bool)
  | num (n : Int)
  | str (s : String)
deriving DecidableEq, Repr

/-- A JavaScript value: a primitive, or a pointer to a heap object. -/
inductive JVal where
  | prim (p : JPrim)
  | node (id : Nat)
deriving DecidableEq, Repr

/-- A heap object: a JSON array or object whose children are values. -/
inductive JObj where
  | arr (items : List JVal)
  | obj (fields : List (String × JVal))
deriving DecidableEq, Repr

/-- The JavaScript heap: a finite map from object ids to objects. -/
abbrev Heap := List (Nat × JObj)

/-- Association-list lookup (first match wins; JavaScript object keys and
`Map` keys are unique, so well-formed states have at most one match). -/
def alookup {α β : Type} [DecidableEq α] : List (α × β) → α → Option β
  | [], _ => none
  | (k, v) :: rest, a => if k = a then some v else alookup rest a

/-- `Map.set` / property assignment: replace the first binding of the key in
place, or append a new binding. -/
def aset {α β : Type} [DecidableEq α] : List (α × β) → α → β → List (α × β)
  | [], a, b => [(a, b)]
  | (k, v) :: rest, a, b => if k = a then (a, b) :: rest else (k, v) :: aset rest a b

/-! ## JSON Pointer token escaping (`src/pointer.ts`: `escapePointer`,
`unescapePointer`)

The source walks the string one character per loop iteration, accumulating
untouched spans with slice bookkeeping; the per-iteration effect is exactly:
emit `"~0"` for `'~'`, `"~1"` for `'/'`, and the character itself otherwise.
The embedding performs that per-character recursion directly. -/

/-- Errors thrown by the embedded code.  `resolution` is `ResolutionError`
(message, optional `location`, `cause` list — `[]` when no cause was given);
`typeError` is `TypeError`; `plain` is a bare `Error` (or any other
non-`ResolutionError` failure from external code). -/
inductive JsError where
  | resolution (msg : String) (location : Option String) (cause : List JsError)
  | typeError (msg : String)
  | plain (msg : String)
deriving Repr

/-- `error instanceof ResolutionError`. -/
def isResolutionError : JsError → Bool
  | .resolution _ _ _ => true
  | _ => false

/-- `error.message`. -/
def errMessage : JsError → String
  | .resolution m _ _ => m
  | .typeError m => m
  | .plain m => m

/-- `JSON.stringify` applied to a short string (none of the embedded strings
need character escaping). -/
def jsonQuote (s : String) : String := "\"" ++ s ++ "\""

/-- `escapePointer`, character list level: `'~' ↦ "~0"`, `'/' ↦ "~1"`. -/
def escapeChars : List Char → List Char
  | [] => []
  | c :: rest =>
    if c = '~' then '~' :: '0' :: escapeChars rest
    else if c = '/' then '~' :: '1' :: escapeChars rest
    else c :: escapeChars rest

/-- `escapePointer` (src/pointer.ts line 709). -/
def escapePointer (input : String) : String := ⟨escapeChars input.data⟩

/-- Prepend a character to a successful unescape result, propagating errors. -/
def consOk (c : Char) : Except JsError (List Char) → Except JsError (List Char)
  | .ok out => .ok (c :: out)
  | .error e => .error e

/-- `unescapePointer`, character list level: `"~0" ↦ '~'`, `"~1" ↦ '/'`, a
`'~'` followed by anything else (or ending the string) throws `TypeError`. -/
def unescapeChars : List Char → Except JsError (List Char)
  | [] => .ok []
  | c :: rest =>
    if c = '~' then
      match rest with
      | [] => .error (.typeError ("Invalid JSON pointer escape sequence: " ++ jsonQuote "~"))
      | d :: rest2 =>
        if d = '0' then consOk '~' (unescapeChars rest2)
        else if d = '1' then consOk '/' (unescapeChars rest2)
        else .error (.typeError ("Invalid JSON pointer escape sequence: " ++ jsonQuote ⟨['~', d]⟩))
    else consOk c (unescapeChars rest)

/-- `unescapePointer` (src/pointer.ts line 744). -/
def unescapePointer (input : String) : Except JsError String :=
  match unescapeChars input.data with
  | .ok out => .ok ⟨out⟩
  | .error e => .error e

/-- Every `'~'` in the list opens a `"~0"` or `"~1"` sequence, and no bare
`'/'` occurs. -/
def wellEscaped : List Char → Bool
  | [] => true
  | c :: rest =>
    if c = '/' then false
    else if c = '~' then
      match rest with
      | [] => false
      | d :: rest2 => (d = '0' ∨ d = '1') && wellEscaped rest2
    else wellEscaped rest

/-! ## Node access (`src/node.ts`: `getChild`) and JSON Pointer resolution
(`src/pointer.ts`: `resolvePointer`) -/

/-- Does the string start with the given character?  (`s.startsWith c`,
spelled out over the character list so that it evaluates by kernel
reduction.) -/
def startsWithChar (s : String) (c : Char) : Bool :=
  match s.data with
  | [] => false
  | d :: _ => d = c

/-- Does the string end with the given character?  (`s.endsWith c`.) -/
def endsWithChar (s : String) (c : Char) : Bool :=
  s.data.getLast? = some c

/-- The numeric value of a decimal digit. -/
def digitVal (c : Char) : Option Nat :=
  if '0' ≤ c ∧ c ≤ '9' then some (c.toNat - '0'.toNat) else none

/-- Parse a non-empty run of decimal digits. -/
def parseNatAux : List Char → Nat → Option Nat
  | [], acc => some acc
  | c :: rest, acc =>
    match digitVal c with
    | some d => parseNatAux rest (acc * 10 + d)
    | none => none

/-- A canonical array index: a non-empty digit string with no leading zero
(except `"0"` itself).  JavaScript array element access `arr[key]` hits an
element exactly for such keys (with the index in range). -/
def decodeIndex (s : String) : Option Nat :=
  match s.data with
  | [] => none
  | ['0'] => some 0
  | c :: rest => if c = '0' then none else parseNatAux (c :: rest) 0

/-- `getChild` (src/node.ts line 183): property access on a node.  `null` and
primitives have no children; objects look up an own property; arrays look up
a canonical index.  (Exotic array properties such as `length` and
prototype-inherited properties are outside the JSON data model.) -/
def getChild (h : Heap) (v : JVal) (key : String) : Option JVal :=
  match v with
  | .prim _ => none
  | .node id =>
    match alookup h id with
    | none => none
    | some (.obj fields) => alookup fields key
    | some (.arr items) =>
      match decodeIndex key with
      | some i => items.get? i
      | none => none

/-- Split a character list at every occurrence of a separator (the pieces
between successive separators, in order; n separators yield n+1 pieces). -/
def splitSep (sep : Char) : List Char → List (List Char)
  | [] => [[]]
  | c :: rest =>
    if c = sep then [] :: splitSep sep rest
    else
      match splitSep sep rest with
      | t :: ts => (c :: t) :: ts
      | [] => [[c]]

/-- The raw (still escaped) tokens of a pointer that starts with `"/"`: the
substrings between successive `'/'` separators, as the source's
`indexOf`-driven scan produces them. -/
def ptrTokens (pointer : String) : List String :=
  (splitSep '/' (pointer.data.drop 1)).map (fun t => ⟨t⟩)

/-- The token-consuming loop of `resolvePointer`: unescape the next raw
token, fetch the child, and fail with a `ResolutionError` located at the
pointer prefix consumed so far (`pointer.slice(0, end)`) when the child is
absent.  `consumed` is the prefix of the pointer before the current token's
separator. -/
def resolveTokens (h : Heap) (pointer : String) :
    List String → String → JVal → Except JsError JVal
  | [], _, node => .ok node
  | raw :: rest, consumed, node =>
    match unescapePointer raw with
    | .error e => .error e
    | .ok token =>
      match getChild h node token with
      | none =>
        .error (.resolution
          ("Property " ++ jsonQuote token ++ " not found while resolving JSON pointer "
            ++ jsonQuote pointer)
          (some (consumed ++ "/" ++ raw)) [])
      | some next => resolveTokens h pointer rest (consumed ++ "/" ++ raw) next

/-- `resolvePointer` (src/pointer.ts line 610). -/
def resolvePointer (h : Heap) (pointer : String) (node : JVal) : Except JsError JVal :=
  if pointer.length ≠ 0 ∧ ¬ (startsWithChar pointer '/') then
    .error (.typeError ("Expected JSON pointer to start with \"/\": " ++ jsonQuote pointer))
  else if pointer.length = 0 then .ok node
  else resolveTokens h pointer (ptrTokens pointer) "" node

/-! ## Resources and the canonical-URI registry (`src/resource.ts`) -/

/-- `Resource` (src/resource.ts): a document unit.  `anchors` is the
name-to-node map (`undefined` collapses to `[]`). -/
structure Resource where
  uri : Option String
  node : JVal
  baseUri : Option String
  anchors : List (String × JVal)
deriving DecidableEq, Repr

/-- `createResource` (src/resource.ts line 378). -/
def createResource (canonicalUri : Option String) (node : JVal) : Resource :=
  ⟨canonicalUri, node, canonicalUri, []⟩

/-- A mutable `Reference` object (src/reference.ts line 19): these live in a
reference heap (`Ctx.refCells`) keyed by reference id, so that the aliasing
between the permanent reference map and the unresolved map is preserved. -/
structure RefCell where
  key : String
  uri : String
  target : Option JVal
deriving DecidableEq, Repr

/-- `Context` (src/context.ts): the shared processing state.  `location`
stands for `currentLocation(context)` at the time of a call (the frame-stack
walk that computes it is location bookkeeping orthogonal to resolution, and
is modelled separately for the frame-stack claims).  `resolveResource?` is
the injected external resolver, modelled per its documented contract
`(uri, context) → Resource | absent` as a pure function that may also throw;
`references` and `unresolved` map node ids to reference ids into
`refCells`. -/
structure Ctx where
  resources : List (JVal × Resource)
  canonical : List (String × Resource)
  resolveResource? : Option (String → Except JsError (Option Resource))
  refCells : List (Nat × RefCell)
  nextRefId : Nat
  references : List (Nat × Nat)
  unresolved : List (Nat × Nat)
  location : String

/-- `setResource` (src/resource.ts line 407): index by node identity and, if
present, by canonical URI — a URI ending in `"#"` is additionally indexed
without the trailing `"#"`. -/
def setResource (ctx : Ctx) (r : Resource) : Ctx :=
  let ctx1 := { ctx with resources := aset ctx.resources r.node r }
  match r.uri with
  | none => ctx1
  | some u =>
    let c1 := aset ctx1.canonical u r
    let c2 := if endsWithChar u '#' then aset c1 ⟨u.data.dropLast⟩ r else c1
    { ctx1 with canonical := c2 }

/-- `resolveResource` (src/resource.ts line 491): canonical map first; on a
miss consult the injected resolver and register anything it returns. -/
def resolveResource (ctx : Ctx) (canonicalUri : String) :
    Except JsError (Option Resource) × Ctx :=
  match alookup ctx.canonical canonicalUri with
  | some r => (.ok (some r), ctx)
  | none =>
    match ctx.resolveResource? with
    | none => (.ok none, ctx)
    | some f =>
      match f canonicalUri with
      | .error e => (.error e, ctx)
      | .ok none => (.ok none, ctx)
      | .ok (some r) => (.ok (some r), setResource ctx r)

/-- `getResourceAnchor` (src/resource.ts line 461). -/
def getResourceAnchor (r : Resource) (name : String) : Option JVal :=
  alookup r.anchors name

/-- `resolveResourceFragment` (src/resource.ts line 518): empty fragment →
root node; leading `"/"` → JSON Pointer; otherwise anchor lookup, throwing a
location-tagged `ResolutionError` when no such anchor exists. -/
def resolveResourceFragment (h : Heap) (ctx : Ctx) (r : Resource) (fragment : String) :
    Except JsError JVal :=
  if fragment.length = 0 then .ok r.node
  else if startsWithChar fragment '/' then resolvePointer h fragment r.node
  else
    match getResourceAnchor r fragment with
    | some node => .ok node
    | none =>
      .error (.resolution
        ("Cannot resolve plain name fragment " ++ jsonQuote fragment
          ++ " because the current resource has no corresponding anchor")
        (some ctx.location) [])

/-- The split before the first occurrence of a separator: `none` when the
separator does not occur, otherwise the characters before it and those
after it. -/
def splitFirstAux (sep : Char) : List Char → Option (List Char × List Char)
  | [] => none
  | c :: rest =>
    if c = sep then some ([], rest)
    else
      match splitFirstAux sep rest with
      | some (pre, post) => some (c :: pre, post)
      | none => none

/-- JavaScript `uri.split("#", 2)` as `resolveResourceUri` uses it: the
canonical part before the first `'#'` and, when a `'#'` occurs, the fragment
part up to (excluding) a second `'#'` — the limit `2` discards anything
after a second `'#'`. -/
def splitHash2 (uri : String) : String × Option String :=
  match splitFirstAux '#' uri.data with
  | none => (uri, none)
  | some (pre, post) =>
    match splitFirstAux '#' post with
    | none => (⟨pre⟩, some ⟨post⟩)
    | some (frag, _) => (⟨pre⟩, some ⟨frag⟩)

/-- The fragment-resolution tail of `resolveResourceUri`: a present,
non-empty fragment is resolved against the chosen resource; otherwise the
resource's root node is returned. -/
def fragPart (h : Heap) (ctx : Ctx) (r : Resource) (fragment : Option String) :
    Except JsError JVal :=
  match fragment with
  | some f => if f.length ≠ 0 then resolveResourceFragment h ctx r f else .ok r.node
  | none => .ok r.node

/-- The canonical-part dispatch of `resolveResourceUri`, with the URI parts
already split: a non-empty canonical part goes through the registry (failing
with `"Unknown resource"` when unknown); an empty one uses the supplied base
resource (failing with `"Cannot resolve relative URI reference"` when none
was supplied). -/
def resolveWithParts (h : Heap) (ctx : Ctx) (resource : Option Resource) (uri : String)
    (canonicalUri : String) (fragment : Option String) : Except JsError JVal × Ctx :=
  if canonicalUri.length ≠ 0 then
    match (resolveResource ctx canonicalUri).1 with
    | .error e => (.error e, (resolveResource ctx canonicalUri).2)
    | .ok none =>
      (.error (.resolution ("Unknown resource " ++ jsonQuote canonicalUri)
        (some ctx.location) []), (resolveResource ctx canonicalUri).2)
    | .ok (some r) =>
      (fragPart h (resolveResource ctx canonicalUri).2 r fragment,
       (resolveResource ctx canonicalUri).2)
  else
    match resource with
    | none =>
      (.error (.resolution
        ("Cannot resolve relative URI reference " ++ jsonQuote uri
          ++ " because the stack has no base node")
        (some ctx.location) []), ctx)
    | some r => (fragPart h ctx r fragment, ctx)

/-- `resolveResourceUri` (src/resource.ts line 558). -/
def resolveResourceUri (h : Heap) (ctx : Ctx) (resource : Option Resource) (uri : String) :
    Except JsError JVal × Ctx :=
  resolveWithParts h ctx resource uri (splitHash2 uri).1 (splitHash2 uri).2

/-! ## Reference registration (`src/reference.ts`: `registerReference`) -/

/-- `getReference` (src/reference.ts line 55): the reference object
associated with a node, through the permanent reference map. -/
def getReference (ctx : Ctx) (v : JVal) : Option RefCell :=
  match v with
  | .prim _ => none
  | .node id =>
    match alookup ctx.references id with
    | some rid => alookup ctx.refCells rid
    | none => none

/-- `registerReference` (src/reference.ts line 72): return the existing
reference if the node already has one; otherwise allocate a fresh
`Reference` and insert it into both the permanent map and the unresolved
map.  Returns the reference id (the identity of the returned object). -/
def registerReference (ctx : Ctx) (node : Nat) (key uri : String) : Nat × Ctx :=
  match alookup ctx.references node with
  | some rid => (rid, ctx)
  | none =>
    let rid := ctx.nextRefId
    (rid, { ctx with
      refCells := ctx.refCells ++ [(rid, ⟨key, uri, none⟩)],
      nextRefId := rid + 1,
      references := ctx.references ++ [(node, rid)],
      unresolved := ctx.unresolved ++ [(node, rid)] })

/-! ## Batch resolution (`src/reference.ts`: `resolveReferences`)

The concatenated sources carry two revisions of `resolveReferences` (a
synchronous one in reference.ts and the `async`/`await` one embedded in
resource.test.ts, which the README and the tests exercise); both perform the
same drain, and the pure embedding — where awaiting a call and making a call
coincide — covers both. -/

/-- `reference.target = result`: mutate the reference cell `rid`. -/
def setTarget (ctx : Ctx) (rid : Nat) (t : JVal) : Ctx :=
  match alookup ctx.refCells rid with
  | some cell => { ctx with refCells := aset ctx.refCells rid ⟨cell.key, cell.uri, some t⟩ }
  | none => ctx

/-- The outcome of the drain loop of `resolveReferences`: the context as
mutated so far, the `ResolutionError`s captured in drain order, the
non-resolution error that aborted the pass (if any), and the entries left
undrained by such an abort. -/
structure DrainResult where
  ctx : Ctx
  captured : List JsError
  aborted : Option JsError
  remaining : List (Nat × Nat)

/-- The URI held by the reference cell `rid` (`reference.uri`; the default
covers the in-JavaScript-unreachable dangling case). -/
def refUriAt (ctx : Ctx) (rid : Nat) : String :=
  match alookup ctx.refCells rid with
  | some c => c.uri
  | none => ""

/-- The `for (const [node, reference] of unresolved)` loop (src/reference.ts
line 120): each entry is removed, its URI resolved against the supplied base
resource, and on success the target is set; a `ResolutionError` is captured
and the drain continues; any other error aborts immediately, leaving the
rest of the entries undrained. -/
def drainRefs (h : Heap) (base : Option Resource) : Ctx → List (Nat × Nat) → DrainResult
  | ctx, [] => ⟨ctx, [], none, []⟩
  | ctx, (_, rid) :: rest =>
    match (resolveResourceUri h ctx base (refUriAt ctx rid)).1 with
    | .ok t =>
      drainRefs h base (setTarget (resolveResourceUri h ctx base (refUriAt ctx rid)).2 rid t) rest
    | .error e =>
      if isResolutionError e then
        ⟨(drainRefs h base (resolveResourceUri h ctx base (refUriAt ctx rid)).2 rest).ctx,
         e :: (drainRefs h base (resolveResourceUri h ctx base (refUriAt ctx rid)).2 rest).captured,
         (drainRefs h base (resolveResourceUri h ctx base (refUriAt ctx rid)).2 rest).aborted,
         (drainRefs h base (resolveResourceUri h ctx base (refUriAt ctx rid)).2 rest).remaining⟩
      else ⟨(resolveResourceUri h ctx base (refUriAt ctx rid)).2, [], some e, rest⟩

/-- The enumeration of the causes in the aggregate error's message:
`"\n  " + error.message` for each cause, in order. -/
def msgsConcat : List JsError → String
  | [] => ""
  | e :: rest => "\n  " ++ errMessage e ++ msgsConcat rest

/-- The message accumulation of the aggregate `ResolutionError`
(src/reference.ts lines 140–143), exactly as the source folds it. -/
def aggMessage (es : List JsError) : String :=
  es.foldl (fun m e => m ++ "\n  " ++ errMessage e) "Unable to resolve multiple references"

/-- The result of `resolveReferences`: normal return or thrown error, plus
the context as left behind. -/
structure ResolveOutcome where
  result : Except JsError Unit
  ctx : Ctx

/-- The post-drain dispatch of `resolveReferences` (src/reference.ts lines
139–150): an abort propagates as-is; otherwise zero captured failures return
normally, one propagates as-is, and two or more are wrapped in one aggregate
`ResolutionError` whose message enumerates each cause, whose location is
`currentLocation(context)` at the time of the call, and whose `cause` holds
the ordered list.  The drained entries leave the unresolved map either
way. -/
def finishResolve (ctx : Ctx) (d : DrainResult) : ResolveOutcome :=
  match d.aborted with
  | some e => ⟨.error e, { d.ctx with unresolved := d.remaining }⟩
  | none =>
    match d.captured with
    | [] => ⟨.ok (), { d.ctx with unresolved := d.remaining }⟩
    | [e] => ⟨.error e, { d.ctx with unresolved := d.remaining }⟩
    | es => ⟨.error (.resolution (aggMessage es) (some ctx.location) es),
             { d.ctx with unresolved := d.remaining }⟩

/-- `resolveReferences` (src/reference.ts line 110): drain the unresolved
map, then dispatch on the captured failures. -/
def resolveReferences (h : Heap) (ctx : Ctx) (base : Option Resource) : ResolveOutcome :=
  finishResolve ctx (drainRefs h base ctx ctx.unresolved)

/-! ## The C4 claim's and the amended split of a URI at `'#'` -/

/-- Modelled from the claim's words for C4: "the URI is split at the first
`'#'` into a canonical part and a fragment part" — the fragment is
everything after the first `'#'`. -/
def c4SplitClaim (uri : String) : String × Option String :=
  if '#' ∈ uri.data then
    (⟨uri.data.takeWhile (· != '#')⟩,
     some ⟨uri.data.drop ((uri.data.takeWhile (· != '#')).length + 1)⟩)
  else (uri, none)

/-- The amended split: the canonical part is the text before the first
`'#'`; the fragment part is the text between the first `'#'` and a second
`'#'` if one occurs (the `split("#", 2)` limit discards the rest). -/
def c4SplitTrunc (uri : String) : String × Option String :=
  if '#' ∈ uri.data then
    (⟨uri.data.takeWhile (· != '#')⟩,
     some ⟨(uri.data.drop ((uri.data.takeWhile (· != '#')).length + 1)).takeWhile (· != '#')⟩)
  else (uri, none)

/-- `resolveResourceUri` as the C4 claim describes it (fragment = everything
after the first `'#'`), sharing the canonical/fragment dispatch with the
code. -/
def resolveResourceUriClaim (h : Heap) (ctx : Ctx) (resource : Option Resource) (uri : String) :
    Except JsError JVal × Ctx :=
  resolveWithParts h ctx resource uri (c4SplitClaim uri).1 (c4SplitClaim uri).2

/-- `resolveResourceUri` per the amended C4 claim (fragment truncated at a
second `'#'`). -/
def resolveResourceUriTrunc (h : Heap) (ctx : Ctx) (resource : Option Resource) (uri : String) :
    Except JsError JVal × Ctx :=
  resolveWithParts h ctx resource uri (c4SplitTrunc uri).1 (c4SplitTrunc uri).2

/-! ## The frame stack (`src/context.ts`)

A frame's identity matters (`context.stack !== frame` compares object
identity), so pushed frames get unique ids; the stack is the list of
(id, frame) pairs, head topmost — the `parent` chain of the source. -/

/-- A frame's `nodeKey`: a string property name or an array index. -/
inductive NodeKey where
  | str (s : String)
  | idx (n : Nat)
deriving DecidableEq, Repr

/-- `Frame` (src/context.ts line 151): `createFrame` leaves every field
undefined. -/
structure FrameData where
  baseUri : Option String
  nodeKey : Option NodeKey
  node : Option JVal
deriving DecidableEq, Repr

/-- A frame as `createFrame` builds it. -/
def emptyFrame : FrameData := ⟨none, none, none⟩

/-- The stack-owning part of a context, for the frame-stack claims. -/
structure CtxS where
  stack : List (Nat × FrameData)
  nextFrameId : Nat
deriving DecidableEq, Repr

/-- `pushFrame` (src/context.ts line 193): link a fresh frame above the
current top.  Returns the new frame's identity. -/
def pushFrame (ctx : CtxS) : Nat × CtxS :=
  (ctx.nextFrameId, ⟨(ctx.nextFrameId, emptyFrame) :: ctx.stack, ctx.nextFrameId + 1⟩)

/-- `popFrame` (src/context.ts line 204): restore the parent as top. -/
def popFrame (ctx : CtxS) : CtxS := ⟨ctx.stack.tail, ctx.nextFrameId⟩

/-- The identity of the topmost frame (`context.stack`). -/
def topFrameId (ctx : CtxS) : Option Nat := ctx.stack.head?.map Prod.fst

/-- `nestFrame` (src/context.ts line 222) on a synchronous unit of work:
push, run `fn` (which may mutate the context and may throw), fail with the
corruption error when the top of stack is no longer the pushed frame, and
pop in the `finally` whenever the pushed frame is still on top. -/
def nestFrame {A : Type} (ctx : CtxS) (fn : Nat → CtxS → CtxS × Except JsError A) :
    CtxS × Except JsError A :=
  match pushFrame ctx with
  | (fid, ctx1) =>
    match fn fid ctx1 with
    | (ctx2, .error e) =>
      (if topFrameId ctx2 = some fid then popFrame ctx2 else ctx2, .error e)
    | (ctx2, .ok a) =>
      if topFrameId ctx2 = some fid then (popFrame ctx2, .ok a)
      else (ctx2, .error (.plain "Stack frame was replaced during execution"))

/-- An asynchronous unit of work: the synchronous phase runs up to the first
suspension and returns a pending promise; the continuation runs when the
awaited operation settles, and its result settles the promise. -/
structure AsyncUnit (A : Type) where
  sync : CtxS → CtxS
  settle : CtxS → CtxS × Except JsError A

/-- What the source `nestFrame` (src/context.ts line 222) does when the unit
of work is asynchronous: the pending promise returned by `fn` is an opaque
value to the `try`/`finally`, so the top-of-stack check and the `finally`
pop run as soon as the unit suspends; the continuation then runs against the
already-popped stack and settles the promise, with no further check or
pop. -/
def nestFrameOnAsync {A : Type} (ctx : CtxS) (u : AsyncUnit A) : CtxS × Except JsError A :=
  match pushFrame ctx with
  | (fid, ctx1) =>
    let ctx2 := u.sync ctx1
    if topFrameId ctx2 = some fid then u.settle (popFrame ctx2)
    else (ctx2, .error (.plain "Stack frame was replaced during execution"))

/-! ## Tree-shaking (`src/reference.ts` line 231: `treeShakeReferences`)

The embedding follows the reference.ts revision (the resource.test.ts copy
differs only in initializing the `defs` record lazily and re-registering
rewritten reference nodes — differences that do not affect the claims
settled here).  The optional `transform` hook, an injected external
function applied to each freshly built node, is not exercised by any claim
and is not modelled.  The JavaScript `key in defs` test is modelled as
own-key lookup (prototype-inherited keys such as `"toString"` are outside
the JSON data model). -/

/-- `options.roots.includes(ref.target)`: identity membership; a primitive
target never equals one of the root objects. -/
def rootsContains (roots : List Nat) : JVal → Bool
  | .node i => roots.contains i
  | .prim _ => false

/-- The symbolic name derived from a reference URI: the substring after the
last `'/'` or `'#'` (`ref.uri.slice(max(lastIndexOf("/"), lastIndexOf("#")) + 1)`). -/
def nameSuffix (uri : String) : String :=
  ⟨(uri.data.reverse.takeWhile (fun c => !(c == '/' || c == '#'))).reverse⟩

/-- The `while (key in defs) { key = name + counter; counter += 1 }` search.
The tried keys are pairwise distinct, so `|defsKeys| + 1` iterations always
suffice; the fuel only bounds that search. -/
def freshKeyGo (defsKeys : List String) (name : String) : String → Nat → Nat → String
  | key, _, 0 => key
  | key, counter, fuel + 1 =>
    if key ∈ defsKeys then freshKeyGo defsKeys name (name ++ Nat.repr counter) (counter + 1) fuel
    else key

/-- The unique-key selection of `collectReferences` (src/reference.ts lines
285–290): start from the derived name and append an incrementing counter
while the key collides with a key of the `defs` record. -/
def freshKey (defsKeys : List String) (name : String) : String :=
  freshKeyGo defsKeys name name 1 (defsKeys.length + 1)

/-- The mark-phase state: the identity-keyed visited set and the
target-to-name map `refs` (insertion-ordered, as a JavaScript `Map`). -/
structure MarkState where
  visited : List Nat
  refs : List (JVal × String)
deriving DecidableEq, Repr

/-- Fold a function over the children of a heap node (array items or object
property values, in order). -/
def foldChildren {σ : Type} (f : σ → JVal → σ) (h : Heap) (id : Nat) (st : σ) : σ :=
  match alookup h id with
  | some (.arr items) => items.foldl f st
  | some (.obj fields) => (fields.map Prod.snd).foldl f st
  | none => st

/-- `collectReferences` (src/reference.ts line 270), the mark phase: visit
each object node once; when it carries a resolved reference whose target is
not one of the roots, assign the target a name (if it has none yet) and
continue marking from the target; in every case also recurse into the
node's own children.  `defsKeys` is the key set of the `defs` record at the
time of the call — the record is still empty when the mark phase runs, so
`treeShakeReferences` passes `[]`.  The fuel only bounds the recursion
depth; the visited set makes the traversal terminate in the source. -/
def collectRefs (ctx : Ctx) (h : Heap) (roots : List Nat) (defsKeys : List String) :
    Nat → MarkState → JVal → MarkState
  | 0, st, _ => st
  | fuel + 1, st, v =>
    match v with
    | .prim _ => st
    | .node id =>
      if id ∈ st.visited then st
      else
        let st1 : MarkState := ⟨id :: st.visited, st.refs⟩
        let st2 :=
          match getReference ctx (.node id) with
          | some cell =>
            match cell.target with
            | some t =>
              if rootsContains roots t then st1
              else
                let st1' :=
                  if (alookup st1.refs t).isSome then st1
                  else ⟨st1.visited, st1.refs ++ [(t, freshKey defsKeys (nameSuffix cell.uri))]⟩
                collectRefs ctx h roots defsKeys fuel st1' t
            | none => st1
          | none => st1
        foldChildren (collectRefs ctx h roots defsKeys fuel) h id st2

/-- A node recognised as a named reference during rewriting: the reference
on the node, its resolved target, and the name the mark phase assigned to
that target. -/
structure RefHit where
  cell : RefCell
  target : JVal
  name : String
deriving DecidableEq, Repr

/-- `refs.get(ref?.target)` together with the data it came from — `none`
when the node has no reference, the reference is unresolved, or the target
was not named. -/
def refNameOf (ctx : Ctx) (refsMap : List (JVal × String)) (v : JVal) : Option RefHit :=
  match getReference ctx v with
  | some cell =>
    match cell.target with
    | some t =>
      match alookup refsMap t with
      | some nm => some ⟨cell, t, nm⟩
      | none => none
    | none => none
  | none => none

/-- The rewrite-phase state: the heap (inputs live below `nextId`, freshly
built outputs are allocated at `nextId` and up) and the `defs` record — a
`none` value is the `defs[refName] = undefined!` placeholder that breaks
reference cycles. -/
structure Rw where
  heap : Heap
  nextId : Nat
  defs : List (String × Option JVal)
deriving DecidableEq, Repr

/-- `result.push(isObject(item) ? rewriteNode(item) : item)` over a list of
array items: primitives pass through by identity, objects are rewritten.
`none` propagates fuel exhaustion. -/
def rewriteList (f : Rw → JVal → Option (Rw × JVal)) : Rw → List JVal → Option (Rw × List JVal)
  | st, [] => some (st, [])
  | st, item :: rest =>
    match (match item with
           | .prim _ => some (st, item)
           | .node _ => f st item) with
    | none => none
    | some pr =>
      match rewriteList f pr.1 rest with
      | none => none
      | some pr2 => some (pr2.1, pr.2 :: pr2.2)

/-- The object-property analogue of `rewriteList`, preserving keys. -/
def rewriteFields (f : Rw → JVal → Option (Rw × JVal)) :
    Rw → List (String × JVal) → Option (Rw × List (String × JVal))
  | st, [] => some (st, [])
  | st, (k, value) :: rest =>
    match (match value with
           | .prim _ => some (st, value)
           | .node _ => f st value) with
    | none => none
    | some pr =>
      match rewriteFields f pr.1 rest with
      | none => none
      | some pr2 => some (pr2.1, (k, pr.2) :: pr2.2)

/-- `rewriteNode` (src/reference.ts line 307), the rewrite phase: a node
whose reference target was named in the mark phase becomes a fresh
`{ [ref.key]: defsUri + "/" + escapePointer(refName) }` object, with the
target itself rewritten into `defs[refName]` on first encounter (a
placeholder is stored first, so self-referential targets terminate);
otherwise arrays and objects are rebuilt as fresh objects with each child
rewritten, and primitives are returned unchanged.  Fuel exhaustion yields
`none` (the source would diverge only on a structurally cyclic non-reference
graph, which JSON input cannot produce). -/
def rewriteNode (ctx : Ctx) (refsMap : List (JVal × String)) (defsUri : String) :
    Nat → Rw → JVal → Option (Rw × JVal)
  | 0, _, _ => none
  | fuel + 1, st, v =>
    match refNameOf ctx refsMap v with
    | some hit =>
      match (if (alookup st.defs hit.name).isSome then some st
             else
               match rewriteNode ctx refsMap defsUri fuel
                   ⟨st.heap, st.nextId, aset st.defs hit.name none⟩ hit.target with
               | none => none
               | some pr =>
                 some (⟨pr.1.heap, pr.1.nextId, aset pr.1.defs hit.name (some pr.2)⟩ : Rw)) with
      | none => none
      | some st2 =>
        some (⟨aset st2.heap st2.nextId
                 (.obj [(hit.cell.key,
                         .prim (.str (defsUri ++ "/" ++ escapePointer hit.name)))]),
               st2.nextId + 1, st2.defs⟩, .node st2.nextId)
    | none =>
      match v with
      | .prim _ => some (st, v)
      | .node id =>
        match alookup st.heap id with
        | none => some (st, v)
        | some (.arr items) =>
          match rewriteList (rewriteNode ctx refsMap defsUri fuel) st items with
          | none => none
          | some pr =>
            some (⟨aset pr.1.heap pr.1.nextId (.arr pr.2), pr.1.nextId + 1, pr.1.defs⟩,
                  .node pr.1.nextId)
        | some (.obj fields) =>
          match rewriteFields (rewriteNode ctx refsMap defsUri fuel) st fields with
          | none => none
          | some pr =>
            some (⟨aset pr.1.heap pr.1.nextId (.obj pr.2), pr.1.nextId + 1, pr.1.defs⟩,
                  .node pr.1.nextId)

/-- `options.roots.map(rewriteNode)`: every root is rewritten, in input
order. -/
def rewriteRoots (f : Rw → JVal → Option (Rw × JVal)) : Rw → List Nat → Option (Rw × List JVal)
  | st, [] => some (st, [])
  | st, r :: rest =>
    match f st (.node r) with
    | none => none
    | some pr =>
      match rewriteRoots f pr.1 rest with
      | none => none
      | some pr2 => some (pr2.1, pr.2 :: pr2.2)

/-- The output of `treeShakeReferences`: the heap extended with the freshly
built output nodes, the rewritten roots, and the definitions record. -/
structure ShakeResult where
  heap : Heap
  rootsOut : List JVal
  defs : List (String × Option JVal)
deriving DecidableEq, Repr

/-- The mark phase of `treeShakeReferences` (the `for (const root of
options.roots) collectReferences(root)` loop): fold `collectReferences`
over the roots, starting from the empty visited set and the empty
target-to-name map.  The `defs` record is still empty — `[]` — throughout
this phase, since the first `rewriteNode` call happens only after all
`collectReferences` calls have returned. -/
def markPhase (ctx : Ctx) (h : Heap) (roots : List Nat) (fuel : Nat) : MarkState :=
  roots.foldl (fun st r => collectRefs ctx h roots [] fuel st (.node r)) ⟨[], []⟩

/-- `treeShakeReferences` (src/reference.ts line 231): mark every root, then
rewrite the roots in order.  `nextId0` is where the allocator places freshly
built output objects; `none` reports fuel exhaustion. -/
def treeShakeReferences (ctx : Ctx) (h : Heap) (fuel nextId0 : Nat) (roots : List Nat)
    (defsUri : String) : Option ShakeResult :=
  match rewriteRoots
      (rewriteNode ctx (markPhase ctx h roots fuel).refs defsUri fuel)
      ⟨h, nextId0, []⟩ roots with
  | none => none
  | some pr => some ⟨pr.1.heap, pr.2, pr.1.defs⟩

/-! ## Concrete fixtures for witnesses and counterexamples -/

/-- An empty context. -/
def ctx0 : Ctx := ⟨[], [], none, [], 0, [], [], "#loc"⟩

/-- C5 witness heap: `{a: 1}` at node 0. -/
def h5 : Heap := [(0, .obj [("a", .prim (.num 1))])]

/-- C5 witness resource rooted at node 0. -/
def r5 : Resource := ⟨none, .node 0, none, []⟩

/-- C4 counterexample resource: anchors named `"f"` and `"f#g"`. -/
def r4 : Resource := ⟨none, .prim .null, none,
  [("f", .prim (.str "X")), ("f#g", .prim (.str "Y"))]⟩

/-- A resource with canonical URI `"u"` rooted at node 1. -/
def resA : Resource := ⟨some "u", .node 1, some "u", []⟩

/-- A resource whose canonical URI `"u"` shadows `resA`, rooted at node 2. -/
def resB : Resource := ⟨some "u", .node 2, some "u", []⟩

/-- A lazy resolver that answers the request for `"w"` with a resource whose
canonical URI is `"u"` — legal under the resolver contract. -/
def shadowResolver : String → Except JsError (Option Resource) :=
  fun uri => if uri = "w" then .ok (some resB) else .ok none

/-- C1 counterexample context: two unresolved references (`"u"` then `"w"`)
and the shadowing lazy resolver. -/
def ctxShadow : Ctx :=
  ⟨[], [("u", resA)], some shadowResolver,
   [(0, ⟨"$ref", "u", none⟩), (1, ⟨"$ref", "w", none⟩)], 2,
   [(10, 0), (11, 1)], [(10, 0), (11, 1)], "#loc"⟩

/-- C1 counterexample heap: the two candidate target nodes. -/
def hShadow : Heap := [(1, .obj []), (2, .obj [])]

/-- C1 witness context: one unresolved reference to `"u"`, no lazy
resolver. -/
def ctxOkC1 : Ctx :=
  ⟨[], [("u", resA)], none, [(0, ⟨"$ref", "u", none⟩)], 1, [(10, 0)], [(10, 0)], "#loc"⟩

/-- C2 counterexample heap: a root holding two reference nodes (ids 3, 4)
whose URIs `"#/a/item"` and `"#/b/item"` share the suffix `"item"`, and two
distinct target nodes (ids 1, 2). -/
def hC2 : Heap :=
  [(0, .obj [("a", .node 3), ("b", .node 4)]),
   (1, .obj [("t", .prim (.str "one"))]),
   (2, .obj [("t", .prim (.str "two"))]),
   (3, .obj [("$ref", .prim (.str "#/a/item"))]),
   (4, .obj [("$ref", .prim (.str "#/b/item"))])]

/-- C2 counterexample context: both references resolved, to distinct
targets. -/
def ctxC2 : Ctx :=
  ⟨[], [], none,
   [(0, ⟨"$ref", "#/a/item", some (.node 1)⟩), (1, ⟨"$ref", "#/b/item", some (.node 2)⟩)], 2,
   [(3, 0), (4, 1)], [], "#loc"⟩

/-- C7 heap: the cyclic person graph of the spec's cycle-safety scenario —
the root (id 0) holds `$defs.person` (id 2) whose `properties.friend`
(id 5) is a reference node resolved back to the person node. -/
def hC7 : Heap :=
  [(0, .obj [("$defs", .node 1)]),
   (1, .obj [("person", .node 2)]),
   (2, .obj [("type", .prim (.str "object")), ("properties", .node 3)]),
   (3, .obj [("name", .node 4), ("friend", .node 5)]),
   (4, .obj [("type", .prim (.str "string"))]),
   (5, .obj [("$ref", .prim (.str "#/$defs/person"))])]

/-- C7 context: the friend reference is registered and resolved to the
person node (id 2). -/
def ctxC7 : Ctx :=
  ⟨[], [], none, [(0, ⟨"$ref", "#/$defs/person", some (.node 2)⟩)], 1,
   [(5, 0)], [], "#loc"⟩

/-- The C7 tree-shake result (defined, so the C8 witness can name it). -/
def shakeC7 : ShakeResult :=
  (treeShakeReferences ctxC7 hC7 30 10 [0] "#/components/schemas").getD ⟨[], [], []⟩

/-- The tree-shake of the C2 collision fixture, showing the downstream
effect of the colliding names on the rewrite phase. -/
def shakeC2 : ShakeResult :=
  (treeShakeReferences ctxC2 hC2 30 10 [0] "#/defs").getD ⟨[], [], []⟩

/-- A name assigned during the mark phase originates from a reference: some
node carries a reference cell whose resolved target is the named value, the
target is not a root, and the name is the URI's suffix after the last `'/'`
or `'#'` — unchanged, with no collision counter ever appended. -/
def namedFromRef (ctx : Ctx) (roots : List Nat) (p : JVal × String) : Prop :=
  ∃ id cell, getReference ctx (.node id) = some cell ∧ cell.target = some p.1 ∧
    rootsContains roots p.1 = false ∧ p.2 = nameSuffix cell.uri

/-- The mark phase's coverage invariant: every node the traversal has
visited that carries a resolved reference whose target is not one of the
roots has its target assigned a name in the target-keyed `refs` map. -/
abbrev markedAll (ctx : Ctx) (roots : List Nat) (st : MarkState) : Prop :=
  ∀ id ∈ st.visited, ∀ cell t, getReference ctx (.node id) = some cell →
    cell.target = some t → rootsContains roots t = false →
    (alookup st.refs t).isSome = true

/-- Every key of the heap lies below the allocator bound. -/
abbrev heapBound (hp : Heap) (n : Nat) : Prop := ∀ p ∈ hp, p.1 < n

/-- The state evolution of one rewrite step: the allocator only moves
forward, the bound is maintained, heap entries below the starting allocator
position are untouched, no `defs` placeholder survives that was not already
present, and every completed `defs` entry either predates the step or is a
primitive, a freshly allocated node, or a dangling id passed through
unchanged. -/
def rwStep (st st' : Rw) : Prop :=
  st.nextId ≤ st'.nextId ∧
  (heapBound st.heap st.nextId → heapBound st'.heap st'.nextId) ∧
  (∀ id, id < st.nextId → alookup st'.heap id = alookup st.heap id) ∧
  (∀ n, alookup st'.defs n = some none → alookup st.defs n = some none) ∧
  (∀ n w, alookup st'.defs n = some (some w) →
    alookup st.defs n = some (some w) ∨ (∃ q, w = .prim q) ∨
    (∃ i, w = .node i ∧ (st.nextId ≤ i ∨ alookup st.heap i = none)))

/-! # Theorems -/

/-! ## Association-list lemmas -/

theorem alookup_aset_self {α β : Type} [DecidableEq α] (m : List (α × β)) (k : α) (v : β) :
    alookup (aset m k v) k = some v := by
  induction m with
  | nil => simp [aset, alookup]
  | cons p rest ih =>
    by_cases h : p.1 = k
    · simp [aset, alookup, h]
    · simp [aset, alookup, h, ih]

theorem alookup_aset_other {α β : Type} [DecidableEq α] (m : List (α × β)) (k k' : α) (v : β)
    (hne : k ≠ k') : alookup (aset m k v) k' = alookup m k' := by
  induction m with
  | nil => simp [aset, alookup, hne]
  | cons p rest ih =>
    by_cases h : p.1 = k
    · simp [aset, alookup, h, hne, Ne.symm hne]
    · by_cases h' : p.1 = k'
      · simp [aset, alookup, h, h', Ne.symm hne]
      · simp [aset, alookup, h, h', ih]

theorem alookup_append_of_none {α β : Type} [DecidableEq α] (l₁ l₂ : List (α × β)) (a : α)
    (h : alookup l₁ a = none) : alookup (l₁ ++ l₂) a = alookup l₂ a := by
  induction l₁ with
  | nil => simp
  | cons p rest ih =>
    by_cases hp : p.1 = a
    · simp [alookup, hp] at h
    · simp only [alookup, List.cons_append, hp, if_neg hp] at h ⊢
      exact ih h

theorem alookup_append_some {α β : Type} [DecidableEq α] (l₁ l₂ : List (α × β)) (a : α) (b : β)
    (h : alookup l₁ a = some b) : alookup (l₁ ++ l₂) a = some b := by
  induction l₁ with
  | nil => simp [alookup] at h
  | cons p rest ih =>
    by_cases hp : p.1 = a
    · simp only [alookup, List.cons_append, if_pos hp] at h ⊢
      exact h
    · simp only [alookup, List.cons_append, if_neg hp] at h ⊢
      exact ih h

theorem alookup_mem {α β : Type} [DecidableEq α] (m : List (α × β)) (a : α) (b : β)
    (h : alookup m a = some b) : (a, b) ∈ m := by
  induction m with
  | nil => simp [alookup] at h
  | cons p rest ih =>
    obtain ⟨k, v⟩ := p
    by_cases hp : k = a
    · subst hp
      simp only [alookup, if_pos rfl] at h
      cases h
      exact List.mem_cons_self _ _
    · simp only [alookup, if_neg hp] at h
      exact List.mem_cons_of_mem _ (ih h)

theorem heapBound_lt {hp : Heap} {n : Nat} (hb : heapBound hp n) {id : Nat}
    (hs : (alookup hp id).isSome) : id < n := by
  cases hv : alookup hp id with
  | none => rw [hv] at hs; simp at hs
  | some v => exact hb (id, v) (alookup_mem _ _ _ hv)

theorem alookup_aset_isSome {α β : Type} [DecidableEq α] (m : List (α × β)) (k k' : α) (v : β)
    (hs : (alookup (aset m k v) k').isSome) : k' = k ∨ (alookup m k').isSome := by
  by_cases h : k = k'
  · exact Or.inl h.symm
  · rw [alookup_aset_other m k k' v h] at hs
    exact Or.inr hs

/-! ## Pointer escaping (C10) -/

theorem unescape_escape_chars (l : List Char) : unescapeChars (escapeChars l) = .ok l := by
  induction l with
  | nil => rfl
  | cons c rest ih =>
    by_cases h1 : c = '~'
    · subst h1
      rw [escapeChars, unescapeChars.eq_def]
      simp [ih, consOk]
    · by_cases h2 : c = '/'
      · subst h2
        rw [escapeChars, unescapeChars.eq_def]
        simp [h1, ih, consOk]
      · rw [escapeChars, unescapeChars.eq_def]
        simp [h1, h2, ih, consOk]

theorem wellEscaped_escapeChars (l : List Char) : wellEscaped (escapeChars l) = true := by
  induction l with
  | nil => rfl
  | cons c rest ih =>
    by_cases h1 : c = '~'
    · subst h1
      rw [escapeChars, wellEscaped.eq_def]
      simp [wellEscaped, ih]
    · by_cases h2 : c = '/'
      · subst h2
        rw [escapeChars, wellEscaped.eq_def]
        simp [h1, wellEscaped, ih]
      · rw [escapeChars, wellEscaped.eq_def]
        simp [h1, h2, ih]

/-- C10. JSON Pointer token escaping round-trips: for every string `s`,
`unescapePointer (escapePointer s)` returns `s`, and `escapePointer s`
contains no unescaped `'/'` or `'~'` characters (every `'~'` in the output
opens a `"~0"` or `"~1"` sequence). -/
theorem pointer_escape_roundtrip (s : String) :
    unescapePointer (escapePointer s) = .ok s ∧
    wellEscaped (escapePointer s).data = true := by
  have hdata : (escapePointer s).data = escapeChars s.data := rfl
  constructor
  · unfold unescapePointer
    rw [hdata, unescape_escape_chars]
  · rw [hdata]
    exact wellEscaped_escapeChars s.data

/-! ## Idempotent registration (C9) -/

/-- C9. `registerReference` is idempotent: a second registration of the same
node returns the identical `Reference` object (the same reference id)
created by the first registration, the URI and key of the repeated call are
ignored, the context is unchanged, and in particular the size of the
unresolved set is unchanged by the repeated call. -/
theorem registerReference_idempotent (ctx : Ctx) (node : Nat) (k u k' u' : String) :
    (registerReference (registerReference ctx node k u).2 node k' u').1
        = (registerReference ctx node k u).1 ∧
    (registerReference (registerReference ctx node k u).2 node k' u').2
        = (registerReference ctx node k u).2 ∧
    ((registerReference (registerReference ctx node k u).2 node k' u').2).unresolved.length
        = ((registerReference ctx node k u).2).unresolved.length := by
  cases hr : alookup ctx.references node with
  | some rid =>
    simp [registerReference, hr]
  | none =>
    have hlook : alookup ((registerReference ctx node k u).2).references node
        = some ctx.nextRefId := by
      simp only [registerReference, hr]
      rw [alookup_append_of_none _ _ _ hr]
      simp [alookup]
    simp [registerReference, hr] at hlook ⊢
    simp [hlook]

/-! ## The frame stack (C6) -/

/-- C6 (code bug evaluation).  When the unit of work is asynchronous,
`nestFrame` pops the pushed frame and runs its top-of-stack check as soon as
the callback returns its pending promise, not after the operation settles:
for the repository's own corruption scenario (`context.test.ts`, "detects
stack corruption in async nested frames" — an async callback that awaits,
then clears `context.stack` and resolves `"corrupted-result"`), the promise
resolves normally with the stack already cleared, where the test expects a
rejection with the corruption error.  The same corruption inside a
synchronous unit of work is detected, as the second conjunct shows. -/
theorem nestFrame_async_pop_before_settle :
    (nestFrameOnAsync (⟨[(0, emptyFrame)], 1⟩ : CtxS)
        (⟨id, fun c => ((⟨[], c.nextFrameId⟩ : CtxS), .ok "corrupted-result")⟩ : AsyncUnit String))
      = (⟨[], 2⟩, .ok "corrupted-result") ∧
    (nestFrame (⟨[(0, emptyFrame)], 1⟩ : CtxS)
        (fun _ c => ((⟨[], c.nextFrameId⟩ : CtxS), (.ok "corrupted-result" : Except JsError String)))).2
      = .error (.plain "Stack frame was replaced during execution") :=
  ⟨rfl, rfl⟩

/-! ## Tree-shake cycle safety (C7) -/

/-- C7. The spec's cycle-safety scenario: tree-shaking the root whose
`$defs.person` is self-referential (`person.properties.friend` is a resolved
reference back to `person`) terminates (the fueled rewrite completes) and
produces exactly one definitions entry, `"person"`, whose own `friend` field
is a fresh reference node pointing back to that definition's relocated
address `defsUri ++ "/person"`. -/
theorem treeShake_cycle_safety :
    ∃ res, treeShakeReferences ctxC7 hC7 30 10 [0] "#/components/schemas" = some res ∧
      res.defs = [("person", some (.node 14))] ∧
      alookup res.heap 14
        = some (.obj [("type", .prim (.str "object")), ("properties", .node 13)]) ∧
      alookup res.heap 13 = some (.obj [("name", .node 11), ("friend", .node 12)]) ∧
      alookup res.heap 12
        = some (.obj [("$ref", .prim (.str ("#/components/schemas" ++ "/" ++ "person")))]) :=
  ⟨shakeC7, rfl, rfl, rfl, rfl, rfl⟩

/-! ## Counterexamples (C1, C2, C4) -/

/-- C1 counterexample.  With a lazy resolver that answers the request for
`"w"` with a resource whose canonical URI `"u"` shadows an already
registered resource, `resolveReferences` returns normally and empties the
unresolved set, yet the first drained reference's recorded target (node 1)
differs from the node now obtained by resolving its URI `"u"` against the
resource registry (node 2): the claim's post-call re-resolution property
fails on contexts with a lazy resolver. -/
theorem resolveReferences_shadowing_counterexample :
    ctxShadow.unresolved ≠ [] ∧
    (resolveReferences hShadow ctxShadow none).result = .ok () ∧
    (resolveReferences hShadow ctxShadow none).ctx.unresolved = [] ∧
    alookup (resolveReferences hShadow ctxShadow none).ctx.refCells 0
        = some ⟨"$ref", "u", some (.node 1)⟩ ∧
    (resolveResourceUri hShadow (resolveReferences hShadow ctxShadow none).ctx none "u").1
        = .ok (.node 2) ∧
    (JVal.node 1) ≠ (JVal.node 2) :=
  ⟨by decide, rfl, rfl, rfl, rfl, by decide⟩

/-- C2 counterexample.  Marking the root (id 0) that reaches two reference
nodes with URIs `"#/a/item"` and `"#/b/item"`, resolved to the two distinct
targets node 1 (`{t: "one"}`) and node 2 (`{t: "two"}`), assigns both
targets the same name `"item"`: the collision check of `collectReferences`
consults the `defs` record, which is still empty during the mark phase, so
no integer suffix is ever appended and distinct relocated targets do not
always receive distinct names — both entries coexist in the target-keyed
`refs` map.  Downstream, the rewrite phase emits a single `defs` entry
`"item"` holding only the first-encountered target's definition
(`{t: "one"}`, rebuilt at node 10); the second target's definition
(`{t: "two"}`) is silently dropped, and both rewritten reference nodes
(11 and 12) point at the same `"#/defs/item"`. -/
theorem collectReferences_name_collision_counterexample :
    (markPhase ctxC2 hC2 [0] 20).refs = [(.node 1, "item"), (.node 2, "item")] ∧
    (JVal.node 1) ≠ (JVal.node 2) ∧
    nameSuffix "#/a/item" = "item" ∧ nameSuffix "#/b/item" = "item" ∧
    alookup hC2 1 = some (.obj [("t", .prim (.str "one"))]) ∧
    alookup hC2 2 = some (.obj [("t", .prim (.str "two"))]) ∧
    shakeC2.defs = [("item", some (.node 10))] ∧
    alookup shakeC2.heap 10 = some (.obj [("t", .prim (.str "one"))]) ∧
    alookup shakeC2.heap 11 = some (.obj [("$ref", .prim (.str "#/defs/item"))]) ∧
    alookup shakeC2.heap 12 = some (.obj [("$ref", .prim (.str "#/defs/item"))]) :=
  ⟨rfl, by decide, rfl, rfl, rfl, rfl, rfl, rfl, rfl, rfl⟩

/-- C4 counterexample.  For the URI `"#f#g"` — empty canonical part, two
`'#'` characters — the code resolves the fragment `"f"` (the `split("#", 2)`
limit discards `"#g"`), finding the anchor `"f"`, while the claim's
"split at the first `'#'`" reading resolves the fragment `"f#g"`, finding
the anchor `"f#g"`; the two disagree on a resource carrying both anchors. -/
theorem resolveResourceUri_second_hash_counterexample :
    (resolveResourceUri [] ctx0 (some r4) "#f#g").1 = .ok (.prim (.str "X")) ∧
    (resolveResourceUriClaim [] ctx0 (some r4) "#f#g").1 = .ok (.prim (.str "Y")) ∧
    (JVal.prim (.str "X")) ≠ (JVal.prim (.str "Y")) :=
  ⟨rfl, rfl, by decide⟩

/-! ## URI splitting and `resolveResourceUri` (C4) -/

theorem splitFirstAux_spec (sep : Char) (l : List Char) :
    splitFirstAux sep l =
      if sep ∈ l then
        some (l.takeWhile (· != sep), l.drop ((l.takeWhile (· != sep)).length + 1))
      else none := by
  induction l with
  | nil => simp [splitFirstAux]
  | cons c rest ih =>
    by_cases hc : c = sep
    · subst hc
      simp [splitFirstAux, List.takeWhile_cons]
    · rw [splitFirstAux.eq_def]
      simp only [if_neg hc, ih]
      by_cases hm : sep ∈ rest
      · simp only [if_pos hm, List.mem_cons, hm, or_true, if_pos]
        have hpred : (c != sep) = true := by simp [bne, hc]
        simp [List.takeWhile_cons, hpred]
      · have hnm : ¬ (sep ∈ c :: rest) := by
          simp [hm, Ne.symm hc]
        simp [hm, hnm]

theorem takeWhile_of_not_mem (sep : Char) (l : List Char) (h : sep ∉ l) :
    l.takeWhile (· != sep) = l := by
  induction l with
  | nil => rfl
  | cons c rest ih =>
    have hc : c ≠ sep := fun hh => h (hh ▸ List.mem_cons_self c rest)
    have hr : sep ∉ rest := fun hh => h (List.mem_cons_of_mem _ hh)
    have hpred : (c != sep) = true := by simp [bne, hc]
    simp [List.takeWhile_cons, hpred, ih hr]

theorem splitHash2_eq_trunc (uri : String) : splitHash2 uri = c4SplitTrunc uri := by
  unfold splitHash2 c4SplitTrunc
  rw [splitFirstAux_spec]
  by_cases h1 : '#' ∈ uri.data
  · simp only [if_pos h1]
    rw [splitFirstAux_spec]
    by_cases h2 : '#' ∈ uri.data.drop ((uri.data.takeWhile (· != '#')).length + 1)
    · simp [h2]
    · simp [h2, takeWhile_of_not_mem _ _ h2]
  · simp [h1]

/-- C4 (amended). `resolveResourceUri` coincides, on every input, with the
amended split semantics: the canonical part is the text before the first
`'#'`, the fragment part is the text between the first and a second `'#'`
(the `split("#", 2)` limit discards anything after a second `'#'`), a
non-empty canonical part goes through the registry and an empty one uses
the supplied base resource — the shared dispatch `resolveWithParts` —
and an absent or empty fragment yields the chosen resource's root node. -/
theorem resolveResourceUri_split_refinement (h : Heap) (ctx : Ctx) (base : Option Resource)
    (uri : String) :
    resolveResourceUri h ctx base uri = resolveResourceUriTrunc h ctx base uri ∧
    (∀ r : Resource, fragPart h ctx r none = .ok r.node) ∧
    (∀ (r : Resource) (f : String), f.length = 0 → fragPart h ctx r (some f) = .ok r.node) := by
  refine ⟨?_, fun r => rfl, ?_⟩
  · unfold resolveResourceUri resolveResourceUriTrunc
    rw [splitHash2_eq_trunc]
  · intro r f hf
    simp [fragPart, hf]

/-! ## Fragment resolution (C5) -/

theorem consOk_error (c : Char) (r : Except JsError (List Char)) (e : JsError)
    (h : consOk c r = .error e) : r = .error e := by
  cases r with
  | ok out => simp [consOk] at h
  | error e' =>
    simp [consOk] at h
    rw [h]

theorem unescapeChars_error_shape (l : List Char) :
    ∀ e, unescapeChars l = .error e → ∃ m, e = .typeError m := by
  induction l using unescapeChars.induct with
  | case1 =>
    intro e h
    simp [unescapeChars] at h
  | case2 =>
    intro e h
    rw [unescapeChars.eq_def] at h
    simp at h
    exact ⟨_, h.symm⟩
  | case3 rest ih =>
    intro e h
    rw [unescapeChars.eq_def] at h
    simp at h
    exact ih e (consOk_error _ _ _ h)
  | case4 rest hne ih =>
    intro e h
    rw [unescapeChars.eq_def] at h
    simp at h
    exact ih e (consOk_error _ _ _ h)
  | case5 c rest h0 h1 =>
    intro e h
    rw [unescapeChars.eq_def] at h
    simp [h0, h1] at h
    exact ⟨_, h.symm⟩
  | case6 c rest hc ih =>
    intro e h
    rw [unescapeChars.eq_def] at h
    simp [hc] at h
    exact ih e (consOk_error _ _ _ h)

theorem unescapePointer_error_shape (s : String) (e : JsError)
    (h : unescapePointer s = .error e) : ∃ m, e = .typeError m := by
  unfold unescapePointer at h
  cases hu : unescapeChars s.data with
  | ok out => rw [hu] at h; simp at h
  | error e' =>
    rw [hu] at h
    injection h with h'
    exact h' ▸ unescapeChars_error_shape s.data e' hu

theorem resolveTokens_error_shape (h : Heap) (pointer : String) :
    ∀ (toks : List String) (consumed : String) (node : JVal) (e : JsError),
      resolveTokens h pointer toks consumed node = .error e →
      (∃ m, e = .typeError m) ∨ ∃ m loc, e = .resolution m (some loc) [] := by
  intro toks
  induction toks with
  | nil =>
    intro c n e he
    simp [resolveTokens] at he
  | cons raw rest ih =>
    intro c n e he
    rw [resolveTokens] at he
    split at he
    · next e' heq =>
      injection he with he'
      exact Or.inl (he' ▸ unescapePointer_error_shape raw e' heq)
    · next token heq =>
      split at he
      · injection he with he'
        exact Or.inr ⟨_, _, he'.symm⟩
      · exact ih _ _ _ he

theorem resolvePointer_error_shape (h : Heap) (p : String) (node : JVal) (e : JsError)
    (he : resolvePointer h p node = .error e) :
    (∃ m, e = .typeError m) ∨ ∃ m loc, e = .resolution m (some loc) [] := by
  unfold resolvePointer at he
  by_cases h1 : p.length ≠ 0 ∧ ¬ (startsWithChar p '/')
  · rw [if_pos h1] at he
    injection he with he'
    exact Or.inl ⟨_, he'.symm⟩
  · rw [if_neg h1] at he
    by_cases h2 : p.length = 0
    · rw [if_pos h2] at he
      simp at he
    · rw [if_neg h2] at he
      exact resolveTokens_error_shape h p _ _ _ _ he

theorem length_ne_zero_of_startsWith (s : String) (c : Char)
    (h : startsWithChar s c = true) : s.length ≠ 0 := by
  unfold startsWithChar at h
  cases hd : s.data with
  | nil => rw [hd] at h; simp at h
  | cons a l => simp [String.length, hd]

/-- C5. `resolveResourceFragment`, for every resource and fragment without a
leading `'#'`: an empty fragment returns the resource's root node; a
fragment starting with `'/'` performs JSON Pointer addressing against the
root node, any failure of which is a `TypeError` (invalid pointer syntax) or
a location-tagged `ResolutionError` (an absent segment); any other fragment
is an anchor lookup, throwing a `ResolutionError` tagged with the current
location when the resource has no anchor of that name. -/
theorem resolveResourceFragment_modes (h : Heap) (ctx : Ctx) (r : Resource) (frag : String)
    (hnohash : startsWithChar frag '#' = false) :
    (frag.length = 0 → resolveResourceFragment h ctx r frag = .ok r.node) ∧
    (startsWithChar frag '/' = true →
      resolveResourceFragment h ctx r frag = resolvePointer h frag r.node ∧
      ∀ e, resolvePointer h frag r.node = .error e →
        (∃ m, e = .typeError m) ∨ ∃ m loc, e = .resolution m (some loc) []) ∧
    (frag.length ≠ 0 → startsWithChar frag '/' = false →
      ((∃ n, getResourceAnchor r frag = some n ∧
          resolveResourceFragment h ctx r frag = .ok n) ∨
       (getResourceAnchor r frag = none ∧
        resolveResourceFragment h ctx r frag = .error (.resolution
          ("Cannot resolve plain name fragment " ++ jsonQuote frag
            ++ " because the current resource has no corresponding anchor")
          (some ctx.location) [])))) := by
  refine ⟨?_, ?_, ?_⟩
  · intro hlen
    simp [resolveResourceFragment, hlen]
  · intro hstart
    have hlen : frag.length ≠ 0 := length_ne_zero_of_startsWith frag '/' hstart
    refine ⟨by simp [resolveResourceFragment, hlen, hstart], ?_⟩
    intro e he
    exact resolvePointer_error_shape h frag r.node e he
  · intro hlen hstart
    cases ha : getResourceAnchor r frag with
    | none =>
      right
      exact ⟨rfl, by simp [resolveResourceFragment, hlen, hstart, ha]⟩
    | some n =>
      left
      exact ⟨n, rfl, by simp [resolveResourceFragment, hlen, hstart, ha]⟩

/-- C5 witness: at the concrete heap `{a: 1}`, the pointer-mode conclusion
instantiated at fragment `"/a"`. -/
theorem resolveResourceFragment_modes_witness :
    resolveResourceFragment h5 ctx0 r5 "/a" = resolvePointer h5 "/a" r5.node :=
  ((resolveResourceFragment_modes h5 ctx0 r5 "/a" (by decide)).2.1 (by decide)).1

/-! ## Batch-resolution error aggregation (C3) -/

theorem drainRefs_captured_resolution (h : Heap) (base : Option Resource) :
    ∀ (pending : List (Nat × Nat)) (ctx : Ctx) (e : JsError),
      e ∈ (drainRefs h base ctx pending).captured → isResolutionError e = true := by
  intro pending
  induction pending with
  | nil =>
    intro ctx e he
    simp [drainRefs] at he
  | cons p rest ih =>
    intro ctx e he
    obtain ⟨n, rid⟩ := p
    rw [drainRefs] at he
    cases hx : (resolveResourceUri h ctx base (refUriAt ctx rid)).1 with
    | ok t =>
      simp only [hx] at he
      exact ih _ _ he
    | error e' =>
      simp only [hx] at he
      by_cases hres : isResolutionError e' = true
      · rw [if_pos hres] at he
        rcases List.mem_cons.mp he with rfl | hmem
        · exact hres
        · exact ih _ _ hmem
      · rw [if_neg hres] at he
        exact absurd he (List.not_mem_nil e)

theorem drainRefs_remaining_nil (h : Heap) (base : Option Resource) :
    ∀ (pending : List (Nat × Nat)) (ctx : Ctx),
      (drainRefs h base ctx pending).aborted = none →
      (drainRefs h base ctx pending).remaining = [] := by
  intro pending
  induction pending with
  | nil => intro ctx _; rfl
  | cons p rest ih =>
    intro ctx hab
    obtain ⟨n, rid⟩ := p
    rw [drainRefs] at hab ⊢
    cases hx : (resolveResourceUri h ctx base (refUriAt ctx rid)).1 with
    | ok t =>
      simp only [hx] at hab ⊢
      exact ih _ hab
    | error e' =>
      simp only [hx] at hab ⊢
      by_cases hres : isResolutionError e' = true
      · rw [if_pos hres] at hab ⊢
        exact ih _ hab
      · rw [if_neg hres] at hab
        exact Option.noConfusion hab

theorem drainRefs_remaining_suffix (h : Heap) (base : Option Resource) :
    ∀ (pending : List (Nat × Nat)) (ctx : Ctx),
      (drainRefs h base ctx pending).remaining <:+ pending := by
  intro pending
  induction pending with
  | nil =>
    intro ctx
    simp [drainRefs]
  | cons p rest ih =>
    intro ctx
    obtain ⟨n, rid⟩ := p
    rw [drainRefs]
    cases hx : (resolveResourceUri h ctx base (refUriAt ctx rid)).1 with
    | ok t =>
      exact (ih _).trans (List.suffix_cons _ _)
    | error e' =>
      by_cases hres : isResolutionError e' = true
      · simp only [hres, if_true]
        exact (ih _).trans (List.suffix_cons _ _)
      · simp only [hres, if_false]
        exact List.suffix_cons _ _

theorem drainRefs_abort_shape (h : Heap) (base : Option Resource) :
    ∀ (pending : List (Nat × Nat)) (ctx : Ctx) (e : JsError),
      (drainRefs h base ctx pending).aborted = some e → isResolutionError e = false := by
  intro pending
  induction pending with
  | nil =>
    intro ctx e hab
    simp [drainRefs] at hab
  | cons p rest ih =>
    intro ctx e hab
    obtain ⟨n, rid⟩ := p
    rw [drainRefs] at hab
    cases hx : (resolveResourceUri h ctx base (refUriAt ctx rid)).1 with
    | ok t =>
      simp only [hx] at hab
      exact ih _ _ hab
    | error e' =>
      simp only [hx] at hab
      by_cases hres : isResolutionError e' = true
      · rw [if_pos hres] at hab
        exact ih _ _ hab
      · rw [if_neg hres] at hab
        have he' : e' = e := Option.some.inj hab
        subst he'
        simpa using hres

theorem foldl_msgs (es : List JsError) (s : String) :
    es.foldl (fun m e => m ++ "\n  " ++ errMessage e) s = s ++ msgsConcat es := by
  induction es generalizing s with
  | nil => simp [msgsConcat]
  | cons e rest ih =>
    simp only [List.foldl_cons, msgsConcat, ih]
    simp [String.append_assoc]

theorem aggMessage_eq (es : List JsError) :
    aggMessage es = "Unable to resolve multiple references" ++ msgsConcat es :=
  foldl_msgs es _
/-- C3. `resolveReferences` aggregates only resolution-class failures:
every captured failure is a `ResolutionError`; when the drain completes
(no abort) nothing remains undrained and the outcome is determined by the
captured list — empty returns normally, a single error propagates as-is,
and two or more are wrapped in one aggregate `ResolutionError` whose
message enumerates each cause (`"\n  " + message` per cause, in order) and
whose cause holds the ordered list; a non-resolution failure aborts the
pass immediately, is itself propagated, and leaves exactly the undrained
suffix of entries in the unresolved set. -/
theorem resolveReferences_error_aggregation (h : Heap) (ctx : Ctx) (base : Option Resource) :
    (∀ e ∈ (drainRefs h base ctx ctx.unresolved).captured, isResolutionError e = true) ∧
    ((drainRefs h base ctx ctx.unresolved).aborted = none →
      (drainRefs h base ctx ctx.unresolved).remaining = [] ∧
      ((drainRefs h base ctx ctx.unresolved).captured = [] →
        (resolveReferences h ctx base).result = .ok ()) ∧
      (∀ e, (drainRefs h base ctx ctx.unresolved).captured = [e] →
        (resolveReferences h ctx base).result = .error e) ∧
      (∀ e₁ e₂ es, (drainRefs h base ctx ctx.unresolved).captured = e₁ :: e₂ :: es →
        (resolveReferences h ctx base).result = .error (.resolution
          ("Unable to resolve multiple references" ++ msgsConcat (e₁ :: e₂ :: es))
          (some ctx.location) (e₁ :: e₂ :: es)))) ∧
    (∀ e, (drainRefs h base ctx ctx.unresolved).aborted = some e →
      isResolutionError e = false ∧
      (resolveReferences h ctx base).result = .error e ∧
      (resolveReferences h ctx base).ctx.unresolved
          = (drainRefs h base ctx ctx.unresolved).remaining ∧
      (drainRefs h base ctx ctx.unresolved).remaining <:+ ctx.unresolved) := by
  refine ⟨fun e he => drainRefs_captured_resolution h base _ _ e he, ?_, ?_⟩
  · intro hab
    refine ⟨drainRefs_remaining_nil h base _ _ hab, ?_, ?_, ?_⟩
    · intro hcap
      unfold resolveReferences finishResolve
      rw [hab, hcap]
    · intro e hcap
      unfold resolveReferences finishResolve
      rw [hab, hcap]
    · intro e₁ e₂ es hcap
      unfold resolveReferences finishResolve
      rw [hab, hcap]
      show Except.error (JsError.resolution (aggMessage (e₁ :: e₂ :: es))
            (some ctx.location) (e₁ :: e₂ :: es))
          = Except.error (JsError.resolution
            ("Unable to resolve multiple references" ++ msgsConcat (e₁ :: e₂ :: es))
            (some ctx.location) (e₁ :: e₂ :: es))
      rw [aggMessage_eq]
  · intro e hab
    refine ⟨drainRefs_abort_shape h base _ _ e hab, ?_, ?_,
      drainRefs_remaining_suffix h base _ _⟩
    · unfold resolveReferences finishResolve
      rw [hab]
    · unfold resolveReferences finishResolve
      rw [hab]

/-! ## Full drain (C1) -/

theorem resolveResource_no_resolver (ctx : Ctx) (u : String)
    (hres : ctx.resolveResource? = none) :
    resolveResource ctx u = (.ok (alookup ctx.canonical u), ctx) := by
  unfold resolveResource
  cases hl : alookup ctx.canonical u with
  | some r => rfl
  | none => rw [hres]

theorem setTarget_fields (ctx : Ctx) (rid : Nat) (t : JVal) :
    (setTarget ctx rid t).canonical = ctx.canonical ∧
    (setTarget ctx rid t).resolveResource? = ctx.resolveResource? ∧
    (setTarget ctx rid t).location = ctx.location ∧
    (setTarget ctx rid t).unresolved = ctx.unresolved := by
  unfold setTarget
  split <;> exact ⟨rfl, rfl, rfl, rfl⟩

theorem setTarget_lookup_other (ctx : Ctx) (rid rid' : Nat) (t : JVal) (hne : rid' ≠ rid) :
    alookup (setTarget ctx rid t).refCells rid' = alookup ctx.refCells rid' := by
  unfold setTarget
  cases hc : alookup ctx.refCells rid with
  | none => rfl
  | some cell => exact alookup_aset_other _ _ _ _ (Ne.symm hne)

theorem setTarget_lookup_self (ctx : Ctx) (rid : Nat) (t : JVal) (cell : RefCell)
    (hcell : alookup ctx.refCells rid = some cell) :
    alookup (setTarget ctx rid t).refCells rid = some ⟨cell.key, cell.uri, some t⟩ := by
  unfold setTarget
  rw [hcell]
  exact alookup_aset_self _ _ _

theorem setTarget_lookup_isSome (ctx : Ctx) (rid rid' : Nat) (t : JVal)
    (hs : (alookup ctx.refCells rid').isSome) :
    (alookup (setTarget ctx rid t).refCells rid').isSome := by
  by_cases hne : rid' = rid
  · subst hne
    cases hc : alookup ctx.refCells rid' with
    | none => rw [hc] at hs; simp at hs
    | some cell => rw [setTarget_lookup_self ctx rid' t cell hc]; rfl
  · rw [setTarget_lookup_other ctx rid rid' t hne]
    exact hs

theorem fragPart_congr (h : Heap) (ctx ctx' : Ctx) (r : Resource) (f : Option String)
    (hloc : ctx'.location = ctx.location) :
    fragPart h ctx' r f = fragPart h ctx r f := by
  unfold fragPart resolveResourceFragment
  rw [hloc]

theorem resolveResourceUri_snd_no_resolver (h : Heap) (ctx : Ctx) (base : Option Resource)
    (u : String) (hres : ctx.resolveResource? = none) :
    (resolveResourceUri h ctx base u).2 = ctx := by
  unfold resolveResourceUri resolveWithParts
  rw [resolveResource_no_resolver ctx _ hres]
  by_cases hlen : ((splitHash2 u).1).length ≠ 0
  · rw [if_pos hlen]
    cases hl : alookup ctx.canonical (splitHash2 u).1 <;> rfl
  · rw [if_neg hlen]
    cases base <;> rfl

theorem resolveResourceUri_fst_congr (h : Heap) (base : Option Resource) (u : String)
    (ctx ctx' : Ctx) (hcan : ctx'.canonical = ctx.canonical)
    (hres : ctx.resolveResource? = none) (hres' : ctx'.resolveResource? = none)
    (hloc : ctx'.location = ctx.location) :
    (resolveResourceUri h ctx' base u).1 = (resolveResourceUri h ctx base u).1 := by
  unfold resolveResourceUri resolveWithParts
  rw [resolveResource_no_resolver ctx _ hres, resolveResource_no_resolver ctx' _ hres',
    hcan, hloc]
  by_cases hlen : ((splitHash2 u).1).length ≠ 0
  · rw [if_pos hlen, if_pos hlen]
    cases hl : alookup ctx.canonical (splitHash2 u).1 with
    | none => rfl
    | some r =>
      show (fragPart h ctx' r (splitHash2 u).2, ctx').1 = (fragPart h ctx r (splitHash2 u).2, ctx).1
      simp only
      exact fragPart_congr h ctx ctx' r _ hloc
  · rw [if_neg hlen, if_neg hlen]
    cases base with
    | none => rfl
    | some r =>
      show (fragPart h ctx' r (splitHash2 u).2, ctx').1 = (fragPart h ctx r (splitHash2 u).2, ctx).1
      simp only
      exact fragPart_congr h ctx ctx' r _ hloc
theorem drainRefs_fields (h : Heap) (base : Option Resource) :
    ∀ (pending : List (Nat × Nat)) (ctx : Ctx), ctx.resolveResource? = none →
      (drainRefs h base ctx pending).ctx.canonical = ctx.canonical ∧
      (drainRefs h base ctx pending).ctx.resolveResource? = none ∧
      (drainRefs h base ctx pending).ctx.location = ctx.location := by
  intro pending
  induction pending with
  | nil => intro ctx hres; exact ⟨rfl, hres, rfl⟩
  | cons q rest ih =>
    intro ctx hres
    obtain ⟨n, rid⟩ := q
    rw [drainRefs]
    cases hx : (resolveResourceUri h ctx base (refUriAt ctx rid)).1 with
    | ok t =>
      simp only
      rw [resolveResourceUri_snd_no_resolver h ctx base _ hres]
      obtain ⟨h1, h2, h3, _⟩ := setTarget_fields ctx rid t
      have hres2 : (setTarget ctx rid t).resolveResource? = none := by rw [h2, hres]
      obtain ⟨g1, g2, g3⟩ := ih (setTarget ctx rid t) hres2
      exact ⟨g1.trans h1, g2, g3.trans h3⟩
    | error e' =>
      simp only
      rw [resolveResourceUri_snd_no_resolver h ctx base _ hres]
      by_cases hre : isResolutionError e' = true
      · rw [if_pos hre]
        exact ih ctx hres
      · rw [if_neg hre]
        exact ⟨rfl, hres, rfl⟩

theorem drainRefs_frame (h : Heap) (base : Option Resource) :
    ∀ (pending : List (Nat × Nat)) (ctx : Ctx) (rid' : Nat),
      ctx.resolveResource? = none → rid' ∉ pending.map Prod.snd →
      alookup (drainRefs h base ctx pending).ctx.refCells rid'
        = alookup ctx.refCells rid' := by
  intro pending
  induction pending with
  | nil => intro ctx rid' _ _; rfl
  | cons q rest ih =>
    intro ctx rid' hres hnm
    obtain ⟨n, rid⟩ := q
    have hne : rid' ≠ rid := by
      intro hh
      exact hnm (by simp [hh])
    have hnm2 : rid' ∉ rest.map Prod.snd := by
      intro hh
      exact hnm (by simp [hh])
    rw [drainRefs]
    cases hx : (resolveResourceUri h ctx base (refUriAt ctx rid)).1 with
    | ok t =>
      simp only
      rw [resolveResourceUri_snd_no_resolver h ctx base _ hres]
      have hres2 : (setTarget ctx rid t).resolveResource? = none := by
        rw [(setTarget_fields ctx rid t).2.1, hres]
      rw [ih (setTarget ctx rid t) rid' hres2 hnm2]
      exact setTarget_lookup_other ctx rid rid' t hne
    | error e' =>
      simp only
      rw [resolveResourceUri_snd_no_resolver h ctx base _ hres]
      by_cases hre : isResolutionError e' = true
      · rw [if_pos hre]
        exact ih ctx rid' hres hnm2
      · rw [if_neg hre]

theorem drainRefs_ok_targets (h : Heap) (base : Option Resource) :
    ∀ (pending : List (Nat × Nat)) (ctx : Ctx),
      ctx.resolveResource? = none →
      (∀ p ∈ pending, (alookup ctx.refCells p.2).isSome) →
      (drainRefs h base ctx pending).aborted = none →
      (drainRefs h base ctx pending).captured = [] →
      ∀ p ∈ pending, ∃ cell t,
        alookup (drainRefs h base ctx pending).ctx.refCells p.2 = some cell ∧
        cell.target = some t ∧
        (resolveResourceUri h (drainRefs h base ctx pending).ctx base cell.uri).1
          = .ok t := by
  intro pending
  induction pending with
  | nil => intro ctx _ _ _ _ p hp; exact absurd hp (List.not_mem_nil p)
  | cons q rest ih =>
    intro ctx hres hwf hab hcap p hp
    obtain ⟨n, rid⟩ := q
    obtain ⟨cell0, hcell0⟩ : ∃ c, alookup ctx.refCells rid = some c := by
      have hs := hwf (n, rid) (List.mem_cons_self _ _)
      cases hc : alookup ctx.refCells rid with
      | none => rw [hc] at hs; simp at hs
      | some c => exact ⟨c, rfl⟩
    have huri : refUriAt ctx rid = cell0.uri := by unfold refUriAt; rw [hcell0]
    rw [drainRefs] at hab hcap ⊢
    cases hx : (resolveResourceUri h ctx base (refUriAt ctx rid)).1 with
    | error e' =>
      exfalso
      simp only [hx] at hcap hab
      by_cases hre : isResolutionError e' = true
      · rw [if_pos hre] at hcap
        exact List.cons_ne_nil _ _ hcap
      · rw [if_neg hre] at hab
        exact Option.noConfusion hab
    | ok t =>
      simp only [hx] at hab hcap ⊢
      rw [resolveResourceUri_snd_no_resolver h ctx base _ hres] at hab hcap ⊢
      have hres2 : (setTarget ctx rid t).resolveResource? = none := by
        rw [(setTarget_fields ctx rid t).2.1, hres]
      have hwf2 : ∀ p ∈ rest, (alookup (setTarget ctx rid t).refCells p.2).isSome :=
        fun p hp => setTarget_lookup_isSome ctx rid p.2 t (hwf p (List.mem_cons_of_mem _ hp))
      rcases List.mem_cons.mp hp with rfl | hmem
      · -- the head entry
        by_cases hrid : rid ∈ rest.map Prod.snd
        · obtain ⟨q', hq', hq'2⟩ := List.mem_map.mp hrid
          obtain ⟨cell, t', hlook, htgt, hresolve⟩ :=
            ih (setTarget ctx rid t) hres2 hwf2 hab hcap q' hq'
          rw [hq'2] at hlook
          exact ⟨cell, t', hlook, htgt, hresolve⟩
        · have hframe := drainRefs_frame h base rest (setTarget ctx rid t) rid hres2 hrid
          have hself := setTarget_lookup_self ctx rid t cell0 hcell0
          refine ⟨⟨cell0.key, cell0.uri, some t⟩, t, ?_, rfl, ?_⟩
          · rw [hframe, hself]
          · obtain ⟨g1, g2, g3⟩ := drainRefs_fields h base rest (setTarget ctx rid t) hres2
            obtain ⟨f1, _, f3, _⟩ := setTarget_fields ctx rid t
            have hcongr := resolveResourceUri_fst_congr h base cell0.uri ctx
              (drainRefs h base (setTarget ctx rid t) rest).ctx
              (g1.trans f1) hres g2 (g3.trans f3)
            rw [hcongr]
            rw [huri] at hx
            exact hx
      · exact ih (setTarget ctx rid t) hres2 hwf2 hab hcap p hmem
/-- C1 (amended). Full drain, for contexts with no lazy resource resolver
configured (and well-formed unresolved entries): when `resolveReferences`
returns without throwing on a non-empty unresolved map, the unresolved set
is empty afterwards and every drained reference's `target` is set to
exactly the node obtained by resolving that reference's URI with
`resolveResourceUri` against the post-call context, with the same base
resource.  (With a lazy resolver the post-call re-resolution can differ —
see the counterexample.) -/
theorem resolveReferences_full_drain (h : Heap) (ctx : Ctx) (base : Option Resource)
    (hres : ctx.resolveResource? = none)
    (hwf : ∀ p ∈ ctx.unresolved, (alookup ctx.refCells p.2).isSome)
    (hne : ctx.unresolved ≠ [])
    (hok : (resolveReferences h ctx base).result = .ok ()) :
    (resolveReferences h ctx base).ctx.unresolved = [] ∧
    ∀ p ∈ ctx.unresolved, ∃ cell t,
      alookup (resolveReferences h ctx base).ctx.refCells p.2 = some cell ∧
      cell.target = some t ∧
      (resolveResourceUri h (resolveReferences h ctx base).ctx base cell.uri).1 = .ok t := by
  have hab : (drainRefs h base ctx ctx.unresolved).aborted = none := by
    cases habs : (drainRefs h base ctx ctx.unresolved).aborted with
    | none => rfl
    | some e =>
      exfalso
      unfold resolveReferences finishResolve at hok
      rw [habs] at hok
      exact Except.noConfusion hok
  have hcap : (drainRefs h base ctx ctx.unresolved).captured = [] := by
    cases hcaps : (drainRefs h base ctx ctx.unresolved).captured with
    | nil => rfl
    | cons e es =>
      exfalso
      unfold resolveReferences finishResolve at hok
      rw [hab, hcaps] at hok
      cases es with
      | nil => exact Except.noConfusion hok
      | cons e2 es2 => exact Except.noConfusion hok
  have hrem := drainRefs_remaining_nil h base ctx.unresolved ctx hab
  constructor
  · unfold resolveReferences finishResolve
    rw [hab, hcap]
    exact hrem
  · intro p hp
    obtain ⟨cell, t, hlook, htgt, hresolve⟩ :=
      drainRefs_ok_targets h base ctx.unresolved ctx hres hwf hab hcap p hp
    refine ⟨cell, t, ?_, htgt, ?_⟩
    · unfold resolveReferences finishResolve
      rw [hab, hcap]
      exact hlook
    · unfold resolveReferences finishResolve
      rw [hab, hcap]
      obtain ⟨g1, g2, g3⟩ := drainRefs_fields h base ctx.unresolved ctx hres
      exact (resolveResourceUri_fst_congr h base cell.uri
        (drainRefs h base ctx ctx.unresolved).ctx
        { (drainRefs h base ctx ctx.unresolved).ctx with
            unresolved := (drainRefs h base ctx ctx.unresolved).remaining }
        rfl g2 g2 rfl).trans hresolve

theorem resolveReferences_full_drain_witness :
    ∃ cell t,
      alookup (resolveReferences [] ctxOkC1 none).ctx.refCells 0 = some cell ∧
      cell.target = some t ∧
      (resolveResourceUri [] (resolveReferences [] ctxOkC1 none).ctx none cell.uri).1
        = .ok t :=
  (resolveReferences_full_drain [] ctxOkC1 none rfl (by decide) (by decide) rfl).2
    (10, 0) (by decide)

/-! ## Mark-phase naming (C2) -/

theorem freshKey_nil (name : String) : freshKey [] name = name := rfl

theorem collectRefs_refs_aux (ctx : Ctx) (h : Heap) (roots : List Nat) :
    ∀ (fuel : Nat) (st : MarkState) (v : JVal) (p : JVal × String),
      p ∈ (collectRefs ctx h roots [] fuel st v).refs →
      p ∈ st.refs ∨ namedFromRef ctx roots p := by
  intro fuel
  induction fuel with
  | zero => intro st v p hp; exact Or.inl hp
  | succ fuel ih =>
    have hfold : ∀ (l : List JVal) (st' : MarkState) (p : JVal × String),
        p ∈ (l.foldl (collectRefs ctx h roots [] fuel) st').refs →
        p ∈ st'.refs ∨ namedFromRef ctx roots p := by
      intro l
      induction l with
      | nil => intro st' p hp; exact Or.inl hp
      | cons c cs ihl =>
        intro st' p hp
        rcases ihl (collectRefs ctx h roots [] fuel st' c) p hp with hin | hg
        · exact ih st' c p hin
        · exact Or.inr hg
    have hchildren : ∀ (id : Nat) (st2 : MarkState) (p : JVal × String),
        p ∈ (foldChildren (collectRefs ctx h roots [] fuel) h id st2).refs →
        p ∈ st2.refs ∨ namedFromRef ctx roots p := by
      intro id st2 p hp
      unfold foldChildren at hp
      cases hh : alookup h id with
      | none => rw [hh] at hp; exact Or.inl hp
      | some obj =>
        rw [hh] at hp
        cases obj with
        | arr items => exact hfold items st2 p hp
        | obj fields => exact hfold (fields.map Prod.snd) st2 p hp
    intro st v p hp
    cases v with
    | prim q => exact Or.inl hp
    | node id =>
      rw [collectRefs] at hp
      by_cases hvis : id ∈ st.visited
      · rw [if_pos hvis] at hp
        exact Or.inl hp
      · rw [if_neg hvis] at hp
        cases hg : getReference ctx (.node id) with
        | none =>
          simp only [hg] at hp
          have hgot := hchildren id _ p hp
          exact hgot
        | some cell =>
          simp only [hg] at hp
          cases ht : cell.target with
          | none =>
            simp only [ht] at hp
            have hgot := hchildren id _ p hp
            exact hgot
          | some t =>
            simp only [ht] at hp
            by_cases hroot : rootsContains roots t = true
            · rw [if_pos hroot] at hp
              have hgot := hchildren id _ p hp
              exact hgot
            · rw [if_neg hroot] at hp
              rcases hchildren id _ p hp with hin2 | hg2
              · -- p came through the target recursion state
                by_cases hhas : (alookup (⟨id :: st.visited, st.refs⟩ : MarkState).refs t).isSome
                · rw [if_pos hhas] at hin2
                  rcases ih _ t p hin2 with hin3 | hg3
                  · exact Or.inl hin3
                  · exact Or.inr hg3
                · rw [if_neg hhas] at hin2
                  rcases ih _ t p hin2 with hin3 | hg3
                  · rcases List.mem_append.mp hin3 with hin4 | hin4
                    · exact Or.inl hin4
                    · rcases List.mem_singleton.mp hin4 with rfl
                      refine Or.inr ⟨id, cell, hg, ?_, ?_, ?_⟩
                      · rw [ht]
                      · simpa using hroot
                      · rw [freshKey_nil]
                  · exact Or.inr hg3
              · exact Or.inr hg2

theorem collectRefs_marked (ctx : Ctx) (h : Heap) (roots : List Nat) (defsKeys : List String) :
    ∀ (fuel : Nat) (st : MarkState) (v : JVal),
      markedAll ctx roots st →
      markedAll ctx roots (collectRefs ctx h roots defsKeys fuel st v) := by
  intro fuel
  induction fuel with
  | zero => intro st v hm; exact hm
  | succ fuel ih =>
    have hfold : ∀ (l : List JVal) (st' : MarkState), markedAll ctx roots st' →
        markedAll ctx roots (l.foldl (collectRefs ctx h roots defsKeys fuel) st') := by
      intro l
      induction l with
      | nil => intro st' hm; exact hm
      | cons c cs ihl => intro st' hm; exact ihl _ (ih st' c hm)
    have hchildren : ∀ (id : Nat) (st2 : MarkState), markedAll ctx roots st2 →
        markedAll ctx roots (foldChildren (collectRefs ctx h roots defsKeys fuel) h id st2) := by
      intro id st2 hm
      unfold foldChildren
      cases hh : alookup h id with
      | none => exact hm
      | some obj =>
        cases obj with
        | arr items => exact hfold items st2 hm
        | obj fields => exact hfold (fields.map Prod.snd) st2 hm
    intro st v hm
    cases v with
    | prim q => exact hm
    | node id =>
      have key : ∀ st2, collectRefs ctx h roots defsKeys (fuel + 1) st (.node id) = st2 →
          markedAll ctx roots st2 := by
        intro st2 hres
        rw [collectRefs] at hres
        by_cases hvis : id ∈ st.visited
        · rw [if_pos hvis] at hres
          subst hres
          exact hm
        · rw [if_neg hvis] at hres
          cases hg : getReference ctx (.node id) with
          | none =>
            simp only [hg] at hres
            subst hres
            refine hchildren id _ ?_
            intro id' hid' cell' t' hg' ht' hroot'
            rcases List.mem_cons.mp hid' with rfl | hin
            · rw [hg] at hg'; exact Option.noConfusion hg'
            · exact hm id' hin cell' t' hg' ht' hroot'
          | some cell =>
            simp only [hg] at hres
            cases ht : cell.target with
            | none =>
              simp only [ht] at hres
              subst hres
              refine hchildren id _ ?_
              intro id' hid' cell' t' hg' ht' hroot'
              rcases List.mem_cons.mp hid' with rfl | hin
              · rw [hg] at hg'
                obtain rfl : cell = cell' := Option.some.inj hg'
                rw [ht] at ht'
                exact Option.noConfusion ht'
              · exact hm id' hin cell' t' hg' ht' hroot'
            | some t =>
              simp only [ht] at hres
              by_cases hroot : rootsContains roots t = true
              · rw [if_pos hroot] at hres
                subst hres
                refine hchildren id _ ?_
                intro id' hid' cell' t' hg' ht' hroot'
                rcases List.mem_cons.mp hid' with rfl | hin
                · rw [hg] at hg'
                  obtain rfl : cell = cell' := Option.some.inj hg'
                  rw [ht] at ht'
                  obtain rfl : t = t' := Option.some.inj ht'
                  rw [hroot] at hroot'
                  exact Bool.noConfusion hroot'
                · exact hm id' hin cell' t' hg' ht' hroot'
              · rw [if_neg hroot] at hres
                by_cases hhas :
                    (alookup (⟨id :: st.visited, st.refs⟩ : MarkState).refs t).isSome
                · rw [if_pos hhas] at hres
                  subst hres
                  refine hchildren id _ (ih _ t ?_)
                  intro id' hid' cell' t' hg' ht' hroot'
                  rcases List.mem_cons.mp hid' with rfl | hin
                  · rw [hg] at hg'
                    obtain rfl : cell = cell' := Option.some.inj hg'
                    rw [ht] at ht'
                    obtain rfl : t = t' := Option.some.inj ht'
                    exact hhas
                  · exact hm id' hin cell' t' hg' ht' hroot'
                · rw [if_neg hhas] at hres
                  subst hres
                  have hnone : alookup st.refs t = none := by
                    cases hv : alookup st.refs t with
                    | none => rfl
                    | some b => rw [hv] at hhas; simp at hhas
                  refine hchildren id _ (ih _ t ?_)
                  intro id' hid' cell' t' hg' ht' hroot'
                  rcases List.mem_cons.mp hid' with rfl | hin
                  · rw [hg] at hg'
                    obtain rfl : cell = cell' := Option.some.inj hg'
                    rw [ht] at ht'
                    obtain rfl : t = t' := Option.some.inj ht'
                    show (alookup (st.refs ++ [(t, freshKey defsKeys (nameSuffix cell.uri))]) t).isSome
                        = true
                    rw [alookup_append_of_none _ _ _ hnone]
                    simp [alookup]
                  · have hold := hm id' hin cell' t' hg' ht' hroot'
                    show (alookup (st.refs ++ [(t, freshKey defsKeys (nameSuffix cell.uri))]) t').isSome
                        = true
                    cases hv : alookup st.refs t' with
                    | none => rw [hv] at hold; simp at hold
                    | some b =>
                      rw [alookup_append_some _ _ _ _ hv]
                      rfl
      exact key _ rfl

theorem markPhase_marked (ctx : Ctx) (h : Heap) (roots : List Nat) (fuel : Nat) :
    markedAll ctx roots (markPhase ctx h roots fuel) := by
  have hfold : ∀ (l : List Nat) (st : MarkState), markedAll ctx roots st →
      markedAll ctx roots
        (l.foldl (fun st r => collectRefs ctx h roots [] fuel st (.node r)) st) := by
    intro l
    induction l with
    | nil => intro st hm; exact hm
    | cons r rs ihl =>
      intro st hm
      exact ihl _ (collectRefs_marked ctx h roots [] fuel st (.node r) hm)
  refine hfold roots ⟨[], []⟩ ?_
  intro id hid
  exact absurd hid (List.not_mem_nil _)

theorem markPhase_refs (ctx : Ctx) (h : Heap) (roots : List Nat) (fuel : Nat) :
    ∀ p ∈ (markPhase ctx h roots fuel).refs, namedFromRef ctx roots p := by
  have hfold : ∀ (l : List Nat) (st : MarkState) (p : JVal × String),
      p ∈ (l.foldl (fun st r => collectRefs ctx h roots [] fuel st (.node r)) st).refs →
      p ∈ st.refs ∨ namedFromRef ctx roots p := by
    intro l
    induction l with
    | nil => intro st p hp; exact Or.inl hp
    | cons r rs ihl =>
      intro st p hp
      rcases ihl _ p hp with hin | hg
      · exact collectRefs_refs_aux ctx h roots fuel st (.node r) p hin
      · exact Or.inr hg
  intro p hp
  rcases hfold roots ⟨[], []⟩ p hp with hin | hg
  · exact absurd hin (List.not_mem_nil _)
  · exact hg

/-- C2 (amended). During the mark phase of `treeShakeReferences`, in both
directions: (completeness) every node the traversal visits that carries a
resolved reference whose target is not itself one of the supplied roots has
its target assigned a name in the target-keyed `refs` map; and (soundness)
every entry of that map names the resolved, non-root target of some node's
reference, the assigned name being exactly the substring of that
reference's URI after the last `'/'` or `'#'` — unchanged: the collision
check (`while (key in defs)`) consults the `defs` record, which is still
empty throughout the mark phase, so no integer suffix is ever appended, and
distinct targets whose URIs share a suffix receive the same colliding name,
both entries coexisting in the map (see the counterexample for the
downstream effect on the rewrite phase). -/
theorem collectReferences_naming (ctx : Ctx) (h : Heap) (roots : List Nat) (fuel : Nat) :
    (∀ id ∈ (markPhase ctx h roots fuel).visited, ∀ cell t,
      getReference ctx (.node id) = some cell → cell.target = some t →
      rootsContains roots t = false →
      (alookup (markPhase ctx h roots fuel).refs t).isSome = true) ∧
    (∀ p ∈ (markPhase ctx h roots fuel).refs, namedFromRef ctx roots p) :=
  ⟨markPhase_marked ctx h roots fuel, markPhase_refs ctx h roots fuel⟩

/-- C2 witness: at the collision fixture, both directions instantiated
concretely — the visited reference node 4 (uri `"#/b/item"`, target node 2)
has its target named, and the map entry `(node 1, "item")` originates from
a reference with URI suffix `"item"`. -/
theorem collectReferences_naming_witness :
    (alookup (markPhase ctxC2 hC2 [0] 20).refs (.node 2)).isSome = true ∧
      namedFromRef ctxC2 [0] (.node 1, "item") :=
  ⟨(collectReferences_naming ctxC2 hC2 [0] 20).1 4 (by decide)
      ⟨"$ref", "#/b/item", some (.node 2)⟩ (.node 2) rfl rfl (by decide),
   (collectReferences_naming ctxC2 hC2 [0] 20).2 (.node 1, "item") (by decide)⟩

/-! ## C8: tree-shaking never mutates its input and emits a fresh graph -/

theorem mem_aset {α β : Type} [DecidableEq α] (m : List (α × β)) (k : α) (v : β)
    (p : α × β) (hp : p ∈ aset m k v) : p ∈ m ∨ p = (k, v) := by
  induction m with
  | nil => simpa [aset] using hp
  | cons q rest ih =>
    by_cases hq : q.1 = k
    · simp only [aset, if_pos hq] at hp
      rcases List.mem_cons.mp hp with rfl | hmem
      · exact Or.inr rfl
      · exact Or.inl (List.mem_cons_of_mem _ hmem)
    · simp only [aset, if_neg hq] at hp
      rcases List.mem_cons.mp hp with rfl | hmem
      · exact Or.inl (List.mem_cons_self _ _)
      · rcases ih hmem with hmem2 | rfl
        · exact Or.inl (List.mem_cons_of_mem _ hmem2)
        · exact Or.inr rfl

theorem rwStep_refl (st : Rw) : rwStep st st :=
  ⟨Nat.le_refl _, id, fun _ _ => rfl, fun _ hn => hn, fun _ _ hw => Or.inl hw⟩

theorem rwStep_trans {a b c : Rw} (h1 : rwStep a b) (h2 : rwStep b c) : rwStep a c := by
  obtain ⟨m1, b1, p1, d1, e1⟩ := h1
  obtain ⟨m2, b2, p2, d2, e2⟩ := h2
  refine ⟨m1.trans m2, fun hb => b2 (b1 hb), ?_, fun n hn => d1 n (d2 n hn), ?_⟩
  · intro id hid
    rw [p2 id (Nat.lt_of_lt_of_le hid m1), p1 id hid]
  · intro n w hw
    rcases e2 n w hw with hb | hprim | ⟨i, rfl, hcond⟩
    · exact e1 n w hb
    · exact Or.inr (Or.inl hprim)
    · refine Or.inr (Or.inr ⟨i, rfl, ?_⟩)
      rcases hcond with hge | hnone
      · exact Or.inl (m1.trans hge)
      · by_cases hlt : i < a.nextId
        · rw [p1 i hlt] at hnone
          exact Or.inr hnone
        · exact Or.inl (Nat.le_of_not_lt hlt)

theorem rwStep_alloc (st : Rw) (obj : JObj) :
    rwStep st ⟨aset st.heap st.nextId obj, st.nextId + 1, st.defs⟩ := by
  refine ⟨Nat.le_succ _, ?_, ?_, fun _ hn => hn, fun _ _ hw => Or.inl hw⟩
  · intro hb p hp
    rcases mem_aset _ _ _ _ hp with hmem | rfl
    · exact Nat.lt_succ_of_lt (hb p hmem)
    · exact Nat.lt_succ_self _
  · intro id hid
    exact alookup_aset_other _ _ _ _ (Nat.ne_of_gt hid)

theorem rewriteNode_succ (ctx : Ctx) (refsMap : List (JVal × String)) (defsUri : String)
    (fuel : Nat) (st : Rw) (v : JVal) :
    rewriteNode ctx refsMap defsUri (fuel + 1) st v =
      match refNameOf ctx refsMap v with
      | some hit =>
        match (if (alookup st.defs hit.name).isSome then some st
               else
                 match rewriteNode ctx refsMap defsUri fuel
                     ⟨st.heap, st.nextId, aset st.defs hit.name none⟩ hit.target with
                 | none => none
                 | some pr =>
                   some (⟨pr.1.heap, pr.1.nextId, aset pr.1.defs hit.name (some pr.2)⟩ : Rw)) with
        | none => none
        | some st2 =>
          some (⟨aset st2.heap st2.nextId
                   (.obj [(hit.cell.key,
                           .prim (.str (defsUri ++ "/" ++ escapePointer hit.name)))]),
                 st2.nextId + 1, st2.defs⟩, .node st2.nextId)
      | none =>
        match v with
        | .prim _ => some (st, v)
        | .node id =>
          match alookup st.heap id with
          | none => some (st, v)
          | some (.arr items) =>
            match rewriteList (rewriteNode ctx refsMap defsUri fuel) st items with
            | none => none
            | some pr =>
              some (⟨aset pr.1.heap pr.1.nextId (.arr pr.2), pr.1.nextId + 1, pr.1.defs⟩,
                    .node pr.1.nextId)
          | some (.obj fields) =>
            match rewriteFields (rewriteNode ctx refsMap defsUri fuel) st fields with
            | none => none
            | some pr =>
              some (⟨aset pr.1.heap pr.1.nextId (.obj pr.2), pr.1.nextId + 1, pr.1.defs⟩,
                    .node pr.1.nextId) := rfl

theorem rewriteNode_inv (ctx : Ctx) (refsMap : List (JVal × String)) (defsUri : String) :
    ∀ fuel st v st' v', heapBound st.heap st.nextId →
      rewriteNode ctx refsMap defsUri fuel st v = some (st', v') →
      rwStep st st' ∧
      ((∃ nid, v' = .node nid ∧ st.nextId ≤ nid ∧ nid < st'.nextId) ∨
        (v' = v ∧ ((∃ q, v = .prim q) ∨ ∃ i, v = .node i ∧ alookup st.heap i = none))) := by
  intro fuel
  induction fuel with
  | zero =>
    intro st v st' v' _ hres
    exact Option.noConfusion hres
  | succ fuel ih =>
    have hlist : ∀ items st stOut outs, heapBound st.heap st.nextId →
        rewriteList (rewriteNode ctx refsMap defsUri fuel) st items = some (stOut, outs) →
        rwStep st stOut := by
      intro items
      induction items with
      | nil =>
        intro st stOut outs _ hres
        have hp := Option.some.inj hres
        injection hp with hst hv
        subst hst
        exact rwStep_refl st
      | cons item rest ihl =>
        intro st stOut outs hb hres
        cases item with
        | prim q =>
          rw [rewriteList] at hres
          cases hrest : rewriteList (rewriteNode ctx refsMap defsUri fuel) st rest with
          | none => rw [hrest] at hres; exact Option.noConfusion hres
          | some pr2 =>
            obtain ⟨st2, outs2⟩ := pr2
            rw [hrest] at hres
            have hp := Option.some.inj hres
            injection hp with hst hv
            subst hst
            exact ihl st st2 outs2 hb hrest
        | node nid =>
          rw [rewriteList] at hres
          cases hitem : rewriteNode ctx refsMap defsUri fuel st (.node nid) with
          | none => rw [hitem] at hres; exact Option.noConfusion hres
          | some pr =>
            obtain ⟨st1, v1⟩ := pr
            simp only [hitem] at hres
            have hstep1 := (ih st (.node nid) st1 v1 hb hitem).1
            cases hrest : rewriteList (rewriteNode ctx refsMap defsUri fuel) st1 rest with
            | none => rw [hrest] at hres; exact Option.noConfusion hres
            | some pr2 =>
              obtain ⟨st2, outs2⟩ := pr2
              rw [hrest] at hres
              have hp := Option.some.inj hres
              injection hp with hst hv
              subst hst
              exact rwStep_trans hstep1 (ihl st1 st2 outs2 (hstep1.2.1 hb) hrest)
    have hfields : ∀ fields st stOut outs, heapBound st.heap st.nextId →
        rewriteFields (rewriteNode ctx refsMap defsUri fuel) st fields = some (stOut, outs) →
        rwStep st stOut := by
      intro fields
      induction fields with
      | nil =>
        intro st stOut outs _ hres
        have hp := Option.some.inj hres
        injection hp with hst hv
        subst hst
        exact rwStep_refl st
      | cons kv rest ihl =>
        intro st stOut outs hb hres
        obtain ⟨k, value⟩ := kv
        cases value with
        | prim q =>
          rw [rewriteFields] at hres
          cases hrest : rewriteFields (rewriteNode ctx refsMap defsUri fuel) st rest with
          | none => rw [hrest] at hres; exact Option.noConfusion hres
          | some pr2 =>
            obtain ⟨st2, outs2⟩ := pr2
            rw [hrest] at hres
            have hp := Option.some.inj hres
            injection hp with hst hv
            subst hst
            exact ihl st st2 outs2 hb hrest
        | node nid =>
          rw [rewriteFields] at hres
          cases hitem : rewriteNode ctx refsMap defsUri fuel st (.node nid) with
          | none => rw [hitem] at hres; exact Option.noConfusion hres
          | some pr =>
            obtain ⟨st1, v1⟩ := pr
            simp only [hitem] at hres
            have hstep1 := (ih st (.node nid) st1 v1 hb hitem).1
            cases hrest : rewriteFields (rewriteNode ctx refsMap defsUri fuel) st1 rest with
            | none => rw [hrest] at hres; exact Option.noConfusion hres
            | some pr2 =>
              obtain ⟨st2, outs2⟩ := pr2
              rw [hrest] at hres
              have hp := Option.some.inj hres
              injection hp with hst hv
              subst hst
              exact rwStep_trans hstep1 (ihl st1 st2 outs2 (hstep1.2.1 hb) hrest)
    intro st v st' v' hb hres
    rw [rewriteNode_succ] at hres
    cases hrn : refNameOf ctx refsMap v with
    | some hit =>
      simp only [hrn] at hres
      by_cases hdef : (alookup st.defs hit.name).isSome = true
      · rw [if_pos hdef] at hres
        have hp := Option.some.inj hres
        injection hp with hst hv
        subst hst
        subst hv
        exact ⟨rwStep_alloc st _, Or.inl ⟨st.nextId, rfl, Nat.le_refl _, Nat.lt_succ_self _⟩⟩
      · rw [if_neg hdef] at hres
        cases hrec : rewriteNode ctx refsMap defsUri fuel
            ⟨st.heap, st.nextId, aset st.defs hit.name none⟩ hit.target with
        | none => rw [hrec] at hres; exact Option.noConfusion hres
        | some pr =>
          obtain ⟨st1, v1⟩ := pr
          simp only [hrec] at hres
          obtain ⟨⟨m1, b1, p1, d1, e1⟩, hshape⟩ :=
            ih ⟨st.heap, st.nextId, aset st.defs hit.name none⟩ hit.target st1 v1 hb hrec
          have hp := Option.some.inj hres
          injection hp with hst hv
          subst hst
          subst hv
          constructor
          · refine rwStep_trans
              (b := ⟨st1.heap, st1.nextId, aset st1.defs hit.name (some v1)⟩)
              ⟨m1, b1, p1, ?_, ?_⟩ (rwStep_alloc _ _)
            · intro n hn
              by_cases hnr : n = hit.name
              · subst hnr
                rw [alookup_aset_self] at hn
                exact Option.noConfusion (Option.some.inj hn)
              · rw [alookup_aset_other _ _ _ _ (fun he => hnr he.symm)] at hn
                have hn2 := d1 n hn
                rwa [alookup_aset_other _ _ _ _ (fun he => hnr he.symm)] at hn2
            · intro n w hw
              by_cases hnr : n = hit.name
              · subst hnr
                rw [alookup_aset_self] at hw
                obtain rfl : v1 = w := Option.some.inj (Option.some.inj hw)
                rcases hshape with ⟨nid, rfl, hge, _⟩ | ⟨rfl, hpass⟩
                · exact Or.inr (Or.inr ⟨nid, rfl, Or.inl hge⟩)
                · rcases hpass with ⟨q, hq⟩ | ⟨i, hi, hdang⟩
                  · exact Or.inr (Or.inl ⟨q, hq⟩)
                  · exact Or.inr (Or.inr ⟨i, hi, Or.inr hdang⟩)
              · rw [alookup_aset_other _ _ _ _ (fun he => hnr he.symm)] at hw
                rcases e1 n w hw with hpre | hprim | hfresh
                · rw [alookup_aset_other _ _ _ _ (fun he => hnr he.symm)] at hpre
                  exact Or.inl hpre
                · exact Or.inr (Or.inl hprim)
                · exact Or.inr (Or.inr hfresh)
          · exact Or.inl ⟨st1.nextId, rfl, m1, Nat.lt_succ_self _⟩
    | none =>
      cases v with
      | prim q =>
        simp only [hrn] at hres
        have hp := Option.some.inj hres
        injection hp with hst hv
        subst hst
        subst hv
        exact ⟨rwStep_refl st, Or.inr ⟨rfl, Or.inl ⟨q, rfl⟩⟩⟩
      | node id =>
        simp only [hrn] at hres
        cases hh : alookup st.heap id with
        | none =>
          rw [hh] at hres
          have hp := Option.some.inj hres
          injection hp with hst hv
          subst hst
          subst hv
          exact ⟨rwStep_refl st, Or.inr ⟨rfl, Or.inr ⟨id, rfl, hh⟩⟩⟩
        | some obj =>
          cases obj with
          | arr items =>
            simp only [hh] at hres
            cases hl : rewriteList (rewriteNode ctx refsMap defsUri fuel) st items with
            | none => rw [hl] at hres; exact Option.noConfusion hres
            | some pr =>
              obtain ⟨st1, outs⟩ := pr
              rw [hl] at hres
              have hstep := hlist items st st1 outs hb hl
              have hp := Option.some.inj hres
              injection hp with hst hv
              subst hst
              subst hv
              exact ⟨rwStep_trans hstep (rwStep_alloc _ _),
                     Or.inl ⟨st1.nextId, rfl, hstep.1, Nat.lt_succ_self _⟩⟩
          | obj fields =>
            simp only [hh] at hres
            cases hl : rewriteFields (rewriteNode ctx refsMap defsUri fuel) st fields with
            | none => rw [hl] at hres; exact Option.noConfusion hres
            | some pr =>
              obtain ⟨st1, outs⟩ := pr
              rw [hl] at hres
              have hstep := hfields fields st st1 outs hb hl
              have hp := Option.some.inj hres
              injection hp with hst hv
              subst hst
              subst hv
              exact ⟨rwStep_trans hstep (rwStep_alloc _ _),
                     Or.inl ⟨st1.nextId, rfl, hstep.1, Nat.lt_succ_self _⟩⟩

theorem rewriteRoots_inv (ctx : Ctx) (refsMap : List (JVal × String)) (defsUri : String)
    (fuel : Nat) :
    ∀ roots st stOut outs, heapBound st.heap st.nextId →
      (∀ r ∈ roots, (alookup st.heap r).isSome) →
      rewriteRoots (rewriteNode ctx refsMap defsUri fuel) st roots = some (stOut, outs) →
      rwStep st stOut ∧ ∀ v ∈ outs, ∃ nid, v = .node nid ∧ st.nextId ≤ nid := by
  intro roots
  induction roots with
  | nil =>
    intro st stOut outs _ _ hres
    have hp := Option.some.inj hres
    injection hp with hst hv
    subst hst
    subst hv
    exact ⟨rwStep_refl st, by intro v hv; exact absurd hv (List.not_mem_nil _)⟩
  | cons r rest ihr =>
    intro st stOut outs hb hroots hres
    rw [rewriteRoots] at hres
    cases hr : rewriteNode ctx refsMap defsUri fuel st (.node r) with
    | none => rw [hr] at hres; exact Option.noConfusion hres
    | some pr =>
      obtain ⟨st1, v1⟩ := pr
      simp only [hr] at hres
      obtain ⟨hstep1, hshape1⟩ := rewriteNode_inv ctx refsMap defsUri fuel st (.node r) st1 v1 hb hr
      have hv1 : ∃ nid, v1 = .node nid ∧ st.nextId ≤ nid := by
        rcases hshape1 with ⟨nid, rfl, hge, _⟩ | ⟨rfl, hpass⟩
        · exact ⟨nid, rfl, hge⟩
        · rcases hpass with ⟨q, hq⟩ | ⟨i, hi, hdang⟩
          · exact absurd hq (by simp)
          · have hiR : r = i := by injection hi
            subst hiR
            have hS := hroots r (List.mem_cons_self _ _)
            rw [hdang] at hS
            exact absurd hS (by simp)
      cases hrest : rewriteRoots (rewriteNode ctx refsMap defsUri fuel) st1 rest with
      | none => rw [hrest] at hres; exact Option.noConfusion hres
      | some pr2 =>
        obtain ⟨st2, outs2⟩ := pr2
        rw [hrest] at hres
        have hroots1 : ∀ r' ∈ rest, (alookup st1.heap r').isSome := by
          intro r' hr'
          have hrS := hroots r' (List.mem_cons_of_mem _ hr')
          rw [hstep1.2.2.1 r' (heapBound_lt hb hrS)]
          exact hrS
        obtain ⟨hstep2, houts2⟩ := ihr st1 st2 outs2 (hstep1.2.1 hb) hroots1 hrest
        have hp := Option.some.inj hres
        injection hp with hst hv
        subst hst
        subst hv
        refine ⟨rwStep_trans hstep1 hstep2, ?_⟩
        intro v hv
        rcases List.mem_cons.mp hv with rfl | hmem
        · exact hv1
        · obtain ⟨nid, rfl, hge⟩ := houts2 v hmem
          exact ⟨nid, rfl, hstep1.1.trans hge⟩

/-- C8. `treeShakeReferences` builds a brand-new node graph: every heap
entry that existed at call time (every id below the allocator start) is
left exactly as it was, every emitted root is a freshly allocated node, no
`defs[name] = undefined!` cycle placeholder survives into the returned
`defs` record, and every completed `defs` entry is a primitive, a freshly
allocated node, or an id that was already dangling in the input heap —
never a node of the input graph. -/
theorem rewrite_no_mutation_fresh_output (ctx : Ctx) (h : Heap) (fuel nextId0 : Nat)
    (roots : List Nat) (defsUri : String) (res : ShakeResult)
    (hb : heapBound h nextId0)
    (hroots : ∀ r ∈ roots, (alookup h r).isSome)
    (hres : treeShakeReferences ctx h fuel nextId0 roots defsUri = some res) :
    (∀ id, id < nextId0 → alookup res.heap id = alookup h id) ∧
    (∀ v ∈ res.rootsOut, ∃ nid, v = .node nid ∧ nextId0 ≤ nid) ∧
    (∀ n, alookup res.defs n ≠ some none) ∧
    (∀ n w, alookup res.defs n = some (some w) →
      (∃ q, w = .prim q) ∨ ∃ i, w = .node i ∧ (nextId0 ≤ i ∨ alookup h i = none)) := by
  rw [treeShakeReferences] at hres
  cases hrw : rewriteRoots
      (rewriteNode ctx (markPhase ctx h roots fuel).refs defsUri fuel)
      ⟨h, nextId0, []⟩ roots with
  | none => rw [hrw] at hres; exact Option.noConfusion hres
  | some pr =>
    obtain ⟨stF, outs⟩ := pr
    simp only [hrw] at hres
    obtain ⟨hstep, houts⟩ := rewriteRoots_inv ctx _ defsUri fuel roots
      ⟨h, nextId0, []⟩ stF outs hb hroots hrw
    have hp := Option.some.inj hres
    subst hp
    refine ⟨hstep.2.2.1, houts, ?_, ?_⟩
    · intro n hn
      have hnil := hstep.2.2.2.1 n hn
      exact Option.noConfusion hnil
    · intro n w hw
      rcases hstep.2.2.2.2 n w hw with hpre | hgood
      · exact Option.noConfusion hpre
      · exact hgood

/-- C8 witness: at the cyclic-person fixture, the input node 5 (the
reference node) is untouched in the output heap, and the single emitted
root is a fresh node at or above the allocator start 10. -/
theorem rewrite_no_mutation_fresh_output_witness :
    alookup shakeC7.heap 5 = alookup hC7 5 ∧
      ∃ nid, (JVal.node 19) = JVal.node nid ∧ 10 ≤ nid :=
  ⟨(rewrite_no_mutation_fresh_output ctxC7 hC7 30 10 [0] "#/components/schemas" shakeC7
      (by decide) (by decide) rfl).1 5 (by decide),
   (rewrite_no_mutation_fresh_output ctxC7 hC7 30 10 [0] "#/components/schemas" shakeC7
      (by decide) (by decide) rfl).2.1 (.node 19) (by decide)⟩

end ToolJson
